import Mathlib

/-!
A shallow embedding of the block- and inode-management layer of the xv6
file system variant in this repository (src/fs.c, src/fs.h), together with
proofs of the specification claims about it.

Modelling conventions, justified against the source:

* Machine integers (`uint`) are modelled as `Nat`; wrap-around is written
  explicitly as `% 2^32` exactly where the C code's unsigned arithmetic can
  wrap (the `off + n < off` overflow checks in `readi`/`writei`).
* The disk is a record of total functions.  Each block is accessed by the
  code under exactly one of two typed views: as an array of `uint` index
  entries (`entries`, the cast `a = (uint*)bp->data` in `bmap`/`itrunc`) or
  as an array of bytes (`bytes`, the `memmove` targets in `readi`/`writei`).
  `bzero` clears both views.  The free bitmap is modelled one abstract bit
  per block number (`bitmap b`); the C code packs bit `b` into byte
  `(b%BPB)/8`, bit `(b%BPB)%8` of bitmap block `BBLOCK(b,sb)`, and its scan
  order over `(b, bi)` visits block numbers in increasing order.
* The buffer cache (`bread`/`brelse`) and log (`log_write`) collaborators
  are external to this layer; a `bread`/`brelse` window is modelled as a
  direct read of the disk state, and `log_write` as the write taking effect
  on the disk state.  `iupdate`'s write of the on-disk inode through the log
  is modelled by the `itable` component.
* Fatal `panic` exits (balloc exhaustion, bfree double-free, bmap range
  overflow) are modelled as `none`; the operations have no error-return
  path besides these.
-/

/-- Block size in bytes (`BSIZE` in fs.h). -/
def BSIZE : Nat := 512

/-- Number of direct blocks in the inode (`NDIRECT` in fs.h). -/
def NDIRECT : Nat := 11

/-- Entries per index block (`NINDIRECT = BSIZE / sizeof(uint)` in fs.h). -/
def NINDIRECT : Nat := BSIZE / 4

/-- Maximum file length in blocks
(`MAXFILE = NDIRECT + NINDIRECT + NINDIRECT*NINDIRECT` in fs.h). -/
def MAXFILE : Nat := NDIRECT + NINDIRECT + NINDIRECT * NINDIRECT

/-- Bitmap bits per bitmap block (`BPB = BSIZE*8` in fs.h). -/
def BPB : Nat := BSIZE * 8

/-- Directory name width (`DIRSIZ` in fs.h). -/
def DIRSIZ : Nat := 14

/-- Root inode number (`ROOTINO` in fs.h). -/
def ROOTINO : Nat := 1

/-- Modulus of the C `uint` type. -/
def UINT32 : Nat := 2 ^ 32

/-- Modulus of the C `ushort` type (the `inum` field of `struct dirent`). -/
def USHORT : Nat := 2 ^ 16

/-- Directory-inode type tag.  Modelled from the spec: the numeric file-type
constants live in stat.h, which is not under src/; only the distinctions
directory / device / other are observable in src/fs.c. -/
def T_DIR : Nat := 1

/-- Device-inode type tag (see `T_DIR` for provenance). -/
def T_DEV : Nat := 3

/-- On-disk inode image (`struct dinode` in fs.h): type, device numbers,
link count, byte size and the address table of `NDIRECT+1+1` slots
(`addrs i` for `i < NDIRECT+2`; slot `NDIRECT` is the single-indirect
block, slot `NDIRECT+1` the double-indirect block). -/
structure DInode where
  type : Nat
  major : Nat
  minor : Nat
  nlink : Nat
  size : Nat
  addrs : Nat → Nat

/-- In-memory inode (`struct inode`): cache bookkeeping `dev`, `inum`,
`ref`, `valid` plus a cached copy of the on-disk fields. -/
structure Inode where
  dev : Nat
  inum : Nat
  ref : Nat
  valid : Nat
  type : Nat
  major : Nat
  minor : Nat
  nlink : Nat
  size : Nat
  addrs : Nat → Nat

/-- Disk state: total size in blocks (`sb.size`), the free bitmap (one
abstract bit per block, `true` = allocated), the two typed views of every
block's content, and the on-disk inode table (the inode blocks, written
through the log by `iupdate`). -/
structure Disk where
  size : Nat
  bitmap : Nat → Bool
  entries : Nat → Nat → Nat
  bytes : Nat → Nat → Nat
  itable : Nat → DInode

/-- Update one slot of the inode's address table. -/
def Inode.setAddr (ip : Inode) (i v : Nat) : Inode :=
  { ip with addrs := fun j => if j = i then v else ip.addrs j }

/-- Write one `uint` entry of an index block (the buffer write `a[n] = v`
followed by `log_write`). -/
def setEntry (d : Disk) (b j v : Nat) : Disk :=
  { d with entries := fun b' j' => if b' = b ∧ j' = j then v else d.entries b' j' }

/-- Combined effect of marking block `b` allocated in the bitmap
(`bp->data[bi/8] |= m; log_write`) and zero-filling it (`bzero`). -/
def ballocApply (d : Disk) (b : Nat) : Disk :=
  { d with
    bitmap := fun x => if x = b then true else d.bitmap x
    entries := fun x => if x = b then fun _ => 0 else d.entries x
    bytes := fun x => if x = b then fun _ => 0 else d.bytes x }

/-- Inner loop of `balloc`: scan bits `bi, bi+1, ...` of the bitmap block
covering blocks `[b, b+BPB)`; the C loop runs while
`bi < BPB && b + bi < sb.size` and returns the first clear bit. -/
def firstFreeBit (d : Disk) (b bi : Nat) : Option Nat :=
  if bi < BPB then
    if b + bi < d.size then
      if d.bitmap (b + bi) = false then some bi
      else firstFreeBit d b (bi + 1)
    else none
  else none
termination_by BPB - bi
decreasing_by omega

/-- Outer loop of `balloc`: `for(b = 0; b < sb.size; b += BPB)`. -/
def ballocGo (d : Disk) (b : Nat) : Option Nat :=
  if b < d.size then
    match firstFreeBit d b 0 with
    | some bi => some (b + bi)
    | none => ballocGo d (b + BPB)
  else none
termination_by d.size - b
decreasing_by simp only [BPB, BSIZE]; omega

/-- `balloc` (fs.c): scan the bitmap in bitmap-block order for the first
clear bit; mark it, persist the bitmap block through the log, zero-fill
the block (`bzero`) and return its number.  `none` models the
`panic("balloc: out of blocks")` exit. -/
def balloc (d : Disk) : Option (Nat × Disk) :=
  match ballocGo d 0 with
  | some b => some (b, ballocApply d b)
  | none => none

/-- `bfree` (fs.c): clear the bitmap bit of block `b`, persisting the
bitmap block.  `none` models `panic("freeing free block")`. -/
def bfree (d : Disk) (b : Nat) : Option Disk :=
  if d.bitmap b = true then
    some { d with bitmap := fun x => if x = b then false else d.bitmap x }
  else none

/-- `iupdate` (fs.c): copy the cached inode fields to the on-disk inode
image and write it through the log. -/
def iupdate (d : Disk) (ip : Inode) : Disk :=
  { d with itable := fun i =>
      if i = ip.inum then ⟨ip.type, ip.major, ip.minor, ip.nlink, ip.size, ip.addrs⟩
      else d.itable i }

/-- The C idiom `if((addr = ip->addrs[i]) == 0) ip->addrs[i] = addr = balloc(ip->dev);`
shared by all three tiers of `bmap` for the inode's own address slots. -/
def getOrAllocSlot (d : Disk) (ip : Inode) (i : Nat) : Option (Nat × Disk × Inode) :=
  if ip.addrs i = 0 then
    match balloc d with
    | some (b, d') => some (b, d', ip.setAddr i b)
    | none => none
  else some (ip.addrs i, d, ip)

/-- The C idiom `if((addr = a[j]) == 0){ a[j] = addr = balloc(dev); log_write(bp); }`
shared by the index-block dereferences of `bmap`. -/
def getOrAllocEntry (d : Disk) (blk j : Nat) : Option (Nat × Disk) :=
  if d.entries blk j = 0 then
    match balloc d with
    | some (b, d') => some (b, setEntry d' blk j b)
    | none => none
  else some (d.entries blk j, d)

/-- `bmap` (fs.c): translate logical block `bn` of inode `ip` to a physical
block number, allocating missing blocks and index blocks on demand.
Tier 1: `bn < NDIRECT` uses the direct table.  Tier 2: the single-indirect
block `addrs[NDIRECT]` at entry `bn - NDIRECT`.  Tier 3: the
double-indirect block `addrs[NDIRECT+1]`; the code computes
`posBSI = bn % NINDIRECT` and `bn = bn / NINDIRECT` after subtracting
`NDIRECT + NINDIRECT`.  `none` models `panic("bmap: out of range")` and
propagated allocator exhaustion. -/
def bmap (d : Disk) (ip : Inode) (bn : Nat) : Option (Nat × Disk × Inode) :=
  if bn < NDIRECT then
    getOrAllocSlot d ip bn
  else if bn - NDIRECT < NINDIRECT then
    match getOrAllocSlot d ip NDIRECT with
    | some (saddr, d1, ip1) =>
      match getOrAllocEntry d1 saddr (bn - NDIRECT) with
      | some (a, d2) => some (a, d2, ip1)
      | none => none
    | none => none
  else if bn - NDIRECT - NINDIRECT < NINDIRECT * NINDIRECT then
    match getOrAllocSlot d ip (NDIRECT + 1) with
    | some (daddr, d1, ip1) =>
      match getOrAllocEntry d1 daddr ((bn - NDIRECT - NINDIRECT) / NINDIRECT) with
      | some (iaddr, d2) =>
        match getOrAllocEntry d2 iaddr ((bn - NDIRECT - NINDIRECT) % NINDIRECT) with
        | some (t, d3) => some (t, d3, ip1)
        | none => none
      | none => none
    | none => none
  else none

/-- Option-valued left fold used to model the freeing loops of `itrunc`. -/
def foldM1 {σ : Type} (f : σ → Nat → Option σ) : σ → List Nat → Option σ
  | s, [] => some s
  | s, i :: is =>
    match f s i with
    | some s' => foldM1 f s' is
    | none => none

/-- One step of the direct-block loop of `itrunc`:
`if(ip->addrs[i]){ bfree(ip->dev, ip->addrs[i]); ip->addrs[i] = 0; }`. -/
def freeSlot (p : Disk × Inode) (i : Nat) : Option (Disk × Inode) :=
  if p.2.addrs i ≠ 0 then
    match bfree p.1 (p.2.addrs i) with
    | some d' => some (d', p.2.setAddr i 0)
    | none => none
  else some p

/-- Free every non-zero entry of index block `blk`, then the block itself
(the single-indirect phase of `itrunc`, reused verbatim for each inner
index block of the double-indirect phase). -/
def freeIndirect (d : Disk) (blk : Nat) : Option Disk :=
  match foldM1 (fun dd j => if d.entries blk j ≠ 0 then bfree dd (d.entries blk j) else some dd)
      d (List.range NINDIRECT) with
  | some d1 => bfree d1 blk
  | none => none

/-- `itrunc` (fs.c): free the direct blocks, then the single-indirect tree,
then the double-indirect tree, zeroing each address slot; finally set the
size to 0 and persist the inode with `iupdate`.  `none` models a
`panic("freeing free block")` inside some `bfree`. -/
def itrunc (d : Disk) (ip : Inode) : Option (Disk × Inode) :=
  match foldM1 freeSlot (d, ip) (List.range NDIRECT) with
  | none => none
  | some (d1, ip1) =>
    match
      (if ip1.addrs NDIRECT ≠ 0 then
        match freeIndirect d1 (ip1.addrs NDIRECT) with
        | some d2 => some (d2, ip1.setAddr NDIRECT 0)
        | none => none
      else some (d1, ip1)) with
    | none => none
    | some (d2, ip2) =>
      match
        (if ip2.addrs (NDIRECT + 1) ≠ 0 then
          match foldM1 (fun dd i =>
              if d2.entries (ip2.addrs (NDIRECT + 1)) i ≠ 0 then
                freeIndirect dd (d2.entries (ip2.addrs (NDIRECT + 1)) i)
              else some dd)
            d2 (List.range NINDIRECT) with
          | some d3 =>
            match bfree d3 (ip2.addrs (NDIRECT + 1)) with
            | some d4 => some (d4, ip2.setAddr (NDIRECT + 1) 0)
            | none => none
          | none => none
        else some (d2, ip2)) with
      | none => none
      | some (d3, ip3) =>
        some (iupdate d3 { ip3 with size := 0 }, { ip3 with size := 0 })

/-- Read loop of `readi` (fs.c): per iteration, fetch the block holding
byte `off` (`bmap(ip, off/BSIZE)`), copy
`m = min(n - tot, BSIZE - off%BSIZE)` bytes from byte `off%BSIZE` of that
block to positions `dstPos, ..., dstPos+m-1` of the destination, and
advance.  The recursion argument `n` is the C loop's remaining count
`n - tot`. -/
def readiLoop (d : Disk) (ip : Inode) (dst : Nat → Nat) (dstPos off n : Nat) :
    Option ((Nat → Nat) × Disk × Inode) :=
  if n = 0 then some (dst, d, ip)
  else
    match bmap d ip (off / BSIZE) with
    | none => none
    | some (addr, d1, ip1) =>
      readiLoop d1 ip1
        (fun j =>
          if dstPos ≤ j ∧ j < dstPos + min n (BSIZE - off % BSIZE) then
            d1.bytes addr (off % BSIZE + (j - dstPos))
          else dst j)
        (dstPos + min n (BSIZE - off % BSIZE)) (off + min n (BSIZE - off % BSIZE))
        (n - min n (BSIZE - off % BSIZE))
termination_by n
decreasing_by
  have hb : off % BSIZE < BSIZE := Nat.mod_lt _ (by simp [BSIZE])
  omega

/-- `readi` (fs.c) for content inodes.  The `T_DEV` branch delegates to the
device callback table `devsw` which is external to this layer (and not in
src/); it is modelled as `none`, and every claim about `readi` assumes a
non-device inode, so that branch is never relied on.  Failure (`return -1`)
is `none`; success returns the (clamped) byte count, the new destination
buffer and the state. -/
def readi (d : Disk) (ip : Inode) (dst : Nat → Nat) (off n : Nat) :
    Option (Nat × (Nat → Nat) × Disk × Inode) :=
  if ip.type = T_DEV then none
  else if off > ip.size ∨ (off + n) % UINT32 < off then none
  else
    match readiLoop d ip dst 0 off
        (if (off + n) % UINT32 > ip.size then ip.size - off else n) with
    | some (dst1, d1, ip1) =>
      some ((if (off + n) % UINT32 > ip.size then ip.size - off else n), dst1, d1, ip1)
    | none => none

/-- Overwrite bytes `st, ..., st+m-1` of block `b` with
`src (srcPos), ..., src (srcPos+m-1)` (one `memmove` into the buffer plus
`log_write` in the write loop). -/
def writeBytesRange (d : Disk) (b st : Nat) (src : Nat → Nat) (srcPos m : Nat) : Disk :=
  { d with bytes := fun blk x =>
      if blk = b ∧ st ≤ x ∧ x < st + m then src (srcPos + (x - st))
      else d.bytes blk x }

/-- Write loop of `writei` (fs.c), mirror image of `readiLoop`: translate,
copy `m` bytes into the block, persist it through the log, advance. -/
def writeiLoop (d : Disk) (ip : Inode) (src : Nat → Nat) (srcPos off n : Nat) :
    Option (Disk × Inode) :=
  if n = 0 then some (d, ip)
  else
    match bmap d ip (off / BSIZE) with
    | none => none
    | some (addr, d1, ip1) =>
      writeiLoop
        (writeBytesRange d1 addr (off % BSIZE) src srcPos (min n (BSIZE - off % BSIZE)))
        ip1 src (srcPos + min n (BSIZE - off % BSIZE))
        (off + min n (BSIZE - off % BSIZE)) (n - min n (BSIZE - off % BSIZE))
termination_by n
decreasing_by
  have hb : off % BSIZE < BSIZE := Nat.mod_lt _ (by simp [BSIZE])
  omega

/-- `writei` (fs.c) for content inodes (see `readi` for the `T_DEV`
modelling).  After the loop the C variable `off` equals the original
offset plus `n`; if that exceeds the inode's size, the size is updated and
the inode persisted through the log (`iupdate`). -/
def writei (d : Disk) (ip : Inode) (src : Nat → Nat) (off n : Nat) :
    Option (Nat × Disk × Inode) :=
  if ip.type = T_DEV then none
  else if off > ip.size ∨ (off + n) % UINT32 < off then none
  else if (off + n) % UINT32 > MAXFILE * BSIZE then none
  else
    match writeiLoop d ip src 0 off n with
    | none => none
    | some (d1, ip1) =>
      if 0 < n ∧ off + n > ip1.size then
        some (n, iupdate d1 { ip1 with size := off + n }, { ip1 with size := off + n })
      else some (n, d1, ip1)

/-- Index of the first element of `l` satisfying `p` (used to state the
single-pass scans of `iget` and `dirlink`). -/
def findIdxFrom {α : Type} (p : α → Bool) : List α → Option Nat
  | [] => none
  | x :: xs => if p x then some 0 else (findIdxFrom p xs).map (· + 1)

/-- Apply `f` to the element of `l` at position `i`. -/
def listUpd {α : Type} : List α → Nat → (α → α) → List α
  | [], _, _ => []
  | x :: xs, 0, f => f x :: xs
  | x :: xs, n + 1, f => x :: listUpd xs n f

/-- Does cache slot `s` hold a live reference to `(dev, inum)`?
(`ip->ref > 0 && ip->dev == dev && ip->inum == inum` in `iget`). -/
def slotHit (dev inum : Nat) (s : Inode) : Bool :=
  decide (0 < s.ref) && decide (s.dev = dev) && decide (s.inum = inum)

/-- `iget` (fs.c): single pass over the inode cache pool; return the first
slot already holding `(dev, inum)` with its `ref` incremented, otherwise
claim the first slot with `ref == 0` setting `dev`, `inum`, `ref = 1`,
`valid = 0`.  No disk access occurs (the model takes no `Disk`).  `none`
models `panic("iget: no inodes")`.  The C single pass that remembers the
first empty slot while scanning for a hit is equivalent to these two
`findIdxFrom` scans, because the remembered empty slot is only used after
a full hitless scan. -/
def iget (pool : List Inode) (dev inum : Nat) : Option (Nat × List Inode) :=
  match findIdxFrom (slotHit dev inum) pool with
  | some i => some (i, listUpd pool i (fun s => { s with ref := s.ref + 1 }))
  | none =>
    match findIdxFrom (fun s => decide (s.ref = 0)) pool with
    | some i =>
      some (i, listUpd pool i (fun s =>
        { s with dev := dev, inum := inum, ref := 1, valid := 0 }))
    | none => none

/-- Size in bytes of `struct dirent` (2-byte `inum` plus `DIRSIZ` name). -/
def DIRENTSZ : Nat := 16

/-- A directory record (`struct dirent`): a `ushort` inode number and the
fixed `DIRSIZ`-byte name field as written by `strncpy`. -/
structure Dirent where
  inum : Nat
  name : List Char
deriving DecidableEq

/-- The `DIRSIZ`-byte name field produced by `strncpy(de.name, name, DIRSIZ)`:
the first `DIRSIZ` characters of `name`, zero-padded when shorter. -/
def storeName (s : List Char) : List Char :=
  (s ++ List.replicate DIRSIZ (Char.ofNat 0)).take DIRSIZ

/-- `namecmp(s, t) == 0`, i.e. `strncmp(s, t, DIRSIZ) == 0`, where `t` is a
stored name field.  Because every stored name field in this code is
produced by `strncpy` (zero-padded past the terminator), `strncmp` equality
up to `DIRSIZ` coincides with equality of the stored `DIRSIZ`-byte vectors. -/
def nameEq (q : List Char) (stored : List Char) : Bool :=
  decide (storeName q = stored)

/-- Scan of `dirlookup` (fs.c) with its running byte offset: skip records
with `inum == 0`, return the inode number and byte offset (`*poff`) of the
first record whose name matches.  A directory's content is modelled as its
sequence of `DIRENTSZ`-byte records; `readi` of one aligned record becomes
a list element access. -/
def dirlookupOff : List Dirent → List Char → Nat → Option (Nat × Nat)
  | [], _, _ => none
  | de :: rest, name, off =>
    if de.inum ≠ 0 ∧ nameEq name de.name then some (de.inum, off)
    else dirlookupOff rest name (off + DIRENTSZ)

/-- `dirlookup` (fs.c) on a directory's record sequence. -/
def dirlookup (des : List Dirent) (name : List Char) : Option (Nat × Nat) :=
  dirlookupOff des name 0

/-- `dirlink` (fs.c): fail (`return -1`, modelled `none`) when `name` is
already present; otherwise write the record `(inum, name)` over the first
record with `inum == 0`, or append it at the end of the directory when no
such hole exists (the `writei` at `off == dp->size` that grows the
directory).  The stored inode number is the `ushort` truncation of `inum`. -/
def dirlink (des : List Dirent) (name : List Char) (inum : Nat) : Option (List Dirent) :=
  if (dirlookup des name).isSome then none
  else if (findIdxFrom (fun de => decide (de.inum = 0)) des).getD des.length <
      des.length then
    some (listUpd des ((findIdxFrom (fun de => decide (de.inum = 0)) des).getD des.length)
      (fun _ => ⟨inum % USHORT, storeName name⟩))
  else some (des ++ [⟨inum % USHORT, storeName name⟩])

/-- `skipelem` (fs.c): skip leading separators; if nothing remains, fail;
otherwise split off the next path element (silently truncated to `DIRSIZ`
characters, exactly as the `len >= DIRSIZ` branch copies only `DIRSIZ`
bytes) and also skip the separators that follow it. -/
def skipelem (path : List Char) : Option (List Char × List Char) :=
  match path.dropWhile (fun c => c = '/') with
  | [] => none
  | c :: cs =>
    let s := (c :: cs).takeWhile (fun c' => c' ≠ '/')
    let rest := (c :: cs).dropWhile (fun c' => c' ≠ '/')
    some (rest.dropWhile (fun c' => c' = '/'), s.take DIRSIZ)

/-- The part of the file-system state that path resolution reads: the type
of each inode, each directory inode's record sequence, and the calling
process's current directory (`myproc()->cwd`). -/
structure FsView where
  typeOf : Nat → Nat
  dirents : Nat → List Dirent
  cwd : Nat

theorem length_dropWhile_le {α : Type} (p : α → Bool) (l : List α) :
    (l.dropWhile p).length ≤ l.length := by
  induction l with
  | nil => simp
  | cons x xs ih =>
    rw [List.dropWhile_cons]
    split
    · exact Nat.le_trans ih (Nat.le_succ _)
    · simp

theorem dropWhile_head_false {α : Type} (p : α → Bool) (l : List α) (c : α) (cs : List α)
    (h : l.dropWhile p = c :: cs) : p c = false := by
  induction l with
  | nil => simp at h
  | cons x xs ih =>
    rw [List.dropWhile_cons] at h
    split at h
    · exact ih h
    · cases h
      simp_all

theorem skipelem_shorter (path rest name : List Char)
    (h : skipelem path = some (rest, name)) : rest.length < path.length := by
  unfold skipelem at h
  rcases hd : path.dropWhile (fun c => c = '/') with _ | ⟨c, cs⟩
  · rw [hd] at h; simp at h
  · rw [hd] at h
    simp only [Option.some.injEq, Prod.mk.injEq] at h
    have hc : (fun c' => decide (c' = '/')) c = false :=
      dropWhile_head_false _ path c cs hd
    have h1 : (c :: cs).length ≤ path.length := by
      rw [← hd]; exact length_dropWhile_le _ path
    have h2 : (c :: cs).dropWhile (fun c' => c' ≠ '/') = cs.dropWhile (fun c' => c' ≠ '/') := by
      rw [List.dropWhile_cons]
      simp only [decide_eq_false_iff_not] at hc
      simp [hc]
    have h3 : rest.length ≤ (cs.dropWhile (fun c' => c' ≠ '/')).length := by
      rw [← h.1, h2]
      exact length_dropWhile_le _ _
    have h4 : (cs.dropWhile (fun c' => c' ≠ '/')).length ≤ cs.length :=
      length_dropWhile_le _ _
    simp only [List.length_cons] at h1
    omega


/-- Loop of `namex` (fs.c): while `skipelem` yields a component, require the
current inode to be a directory, stop one level early when resolving the
parent (`nameiparent && *path == '\0'`), otherwise look the component up
and descend.  When the path is exhausted, `nameiparent` mode fails
(`iput(ip); return 0`), otherwise the current inode is the result.
Reference counting and locking have no bearing on which inode (if any) is
returned and are not modelled here. -/
def namexGo (fs : FsView) (npar : Bool) (ip : Nat) (path : List Char) : Option Nat :=
  match hs : skipelem path with
  | none => if npar then none else some ip
  | some (rest, name) =>
    if fs.typeOf ip ≠ T_DIR then none
    else if npar ∧ rest = [] then some ip
    else
      match dirlookup (fs.dirents ip) name with
      | none => none
      | some (inum, _) => namexGo fs npar inum rest
termination_by path.length
decreasing_by exact skipelem_shorter path rest name hs

/-- `namex` (fs.c): start from the root inode for an absolute path, else
from the caller's current directory, and walk the components. -/
def namex (fs : FsView) (path : List Char) (npar : Bool) : Option Nat :=
  namexGo fs npar (if path.head? = some '/' then ROOTINO else fs.cwd) path

/-- Pure translation (no allocation): the physical block number currently
stored for logical block `bn`, reading the same tables `bmap` reads. -/
def addrOf (d : Disk) (ip : Inode) (bn : Nat) : Nat :=
  if bn < NDIRECT then ip.addrs bn
  else if bn - NDIRECT < NINDIRECT then
    d.entries (ip.addrs NDIRECT) (bn - NDIRECT)
  else
    d.entries
      (d.entries (ip.addrs (NDIRECT + 1)) ((bn - NDIRECT - NINDIRECT) / NINDIRECT))
      ((bn - NDIRECT - NINDIRECT) % NINDIRECT)

/-- Logical block `bn` is fully mapped: it is in range and every address on
its translation path is already non-zero, so `bmap` resolves it without
allocating. -/
def resolvedB (d : Disk) (ip : Inode) (bn : Nat) : Bool :=
  if bn < NDIRECT then decide (ip.addrs bn ≠ 0)
  else if bn - NDIRECT < NINDIRECT then
    decide (ip.addrs NDIRECT ≠ 0) &&
      decide (d.entries (ip.addrs NDIRECT) (bn - NDIRECT) ≠ 0)
  else if bn - NDIRECT - NINDIRECT < NINDIRECT * NINDIRECT then
    decide (ip.addrs (NDIRECT + 1) ≠ 0) &&
      decide (d.entries (ip.addrs (NDIRECT + 1))
        ((bn - NDIRECT - NINDIRECT) / NINDIRECT) ≠ 0) &&
      decide (d.entries
        (d.entries (ip.addrs (NDIRECT + 1)) ((bn - NDIRECT - NINDIRECT) / NINDIRECT))
        ((bn - NDIRECT - NINDIRECT) % NINDIRECT) ≠ 0)
  else false

/-- Byte `i` of the file content of `ip`: byte `i % BSIZE` of the block the
translation maps logical block `i / BSIZE` to. -/
def fileByte (d : Disk) (ip : Inode) (i : Nat) : Nat :=
  d.bytes (addrOf d ip (i / BSIZE)) (i % BSIZE)


theorem firstFreeBit_some (d : Disk) (b : Nat) : ∀ bi k, firstFreeBit d b bi = some k →
    bi ≤ k ∧ k < BPB ∧ b + k < d.size ∧ d.bitmap (b + k) = false ∧
      ∀ j, bi ≤ j → j < k → d.bitmap (b + j) = true := by
  intro bi k h
  unfold firstFreeBit at h
  split at h
  case isTrue hlt =>
    split at h
    case isTrue hsz =>
      split at h
      case isTrue hfree =>
        cases h
        exact ⟨Nat.le_refl _, hlt, hsz, hfree, fun j h1 h2 => absurd (Nat.lt_of_le_of_lt h1 h2) (Nat.lt_irrefl _)⟩
      case isFalse hset =>
        have ih := firstFreeBit_some d b (bi + 1) k h
        refine ⟨by omega, ih.2.1, ih.2.2.1, ih.2.2.2.1, ?_⟩
        intro j h1 h2
        rcases Nat.lt_or_ge j (bi + 1) with hj | hj
        · have : j = bi := by omega
          subst this
          simpa using hset
        · exact ih.2.2.2.2 j hj h2
    case isFalse => exact absurd h (by simp)
  case isFalse => exact absurd h (by simp)
termination_by bi => BPB - bi

theorem firstFreeBit_none (d : Disk) (b : Nat) : ∀ bi, firstFreeBit d b bi = none →
    ∀ j, bi ≤ j → j < BPB → b + j < d.size → d.bitmap (b + j) = true := by
  intro bi h j h1 h2 h3
  unfold firstFreeBit at h
  split at h
  case isTrue hlt =>
    split at h
    case isTrue hsz =>
      split at h
      case isTrue hfree => exact absurd h (by simp)
      case isFalse hset =>
        rcases Nat.lt_or_ge j (bi + 1) with hj | hj
        · have : j = bi := by omega
          subst this
          simpa using hset
        · exact firstFreeBit_none d b (bi + 1) h j hj h2 h3
    case isFalse hsz => omega
  case isFalse => omega
termination_by bi => BPB - bi

theorem ballocGo_some (d : Disk) : ∀ b k, ballocGo d b = some k →
    b ≤ k ∧ k < d.size ∧ d.bitmap k = false ∧
      ∀ x, b ≤ x → x < k → d.bitmap x = true := by
  intro b k h
  unfold ballocGo at h
  split at h
  case isTrue hlt =>
    rcases hf : firstFreeBit d b 0 with _ | bi
    · rw [hf] at h
      have ih := ballocGo_some d (b + BPB) k h
      have hnone := firstFreeBit_none d b 0 hf
      refine ⟨by omega, ih.2.1, ih.2.2.1, ?_⟩
      intro x hx1 hx2
      rcases Nat.lt_or_ge x (b + BPB) with hx | hx
      · have := hnone (x - b) (Nat.zero_le _) (by omega) (by simp only [show b + (x - b) = x from by omega]; omega)
        simpa [show b + (x - b) = x from by omega] using this
      · exact ih.2.2.2 x hx hx2
    · rw [hf] at h
      cases h
      have hs := firstFreeBit_some d b 0 bi hf
      refine ⟨Nat.le_add_right _ _, hs.2.2.1, hs.2.2.2.1, ?_⟩
      intro x hx1 hx2
      have := hs.2.2.2.2 (x - b) (Nat.zero_le _) (by omega)
      simpa [show b + (x - b) = x from by omega] using this
  case isFalse => exact absurd h (by simp)
termination_by b => d.size - b
decreasing_by simp only [BPB, BSIZE]; omega

/-- C6: `balloc` scans the bitmap in bitmap-block order and returns the
lowest-numbered block whose bit is unset; it sets that bit (persisting the
bitmap block through the log) and the returned block is zero-filled before
it returns; when every bit is set it fails fatally (modelled `none`)
rather than returning an error value. -/
theorem claim_C6_balloc (d : Disk) :
    (∀ b d', balloc d = some (b, d') →
      b < d.size ∧ d.bitmap b = false ∧ (∀ x, x < b → d.bitmap x = true) ∧
      d'.bitmap b = true ∧ (∀ x, x ≠ b → d'.bitmap x = d.bitmap x) ∧
      (∀ j, d'.entries b j = 0) ∧ (∀ x, d'.bytes b x = 0) ∧
      (∀ x, x ≠ b → d'.entries x = d.entries x ∧ d'.bytes x = d.bytes x) ∧
      d'.itable = d.itable ∧ d'.size = d.size)
    ∧ ((∀ x, x < d.size → d.bitmap x = true) → balloc d = none) := by
  constructor
  · intro b d' h
    unfold balloc at h
    rcases hg : ballocGo d 0 with _ | b0
    · rw [hg] at h; exact absurd h (by simp)
    · rw [hg] at h
      simp only [Option.some.injEq, Prod.mk.injEq] at h
      obtain ⟨rfl, rfl⟩ := h
      have hs := ballocGo_some d 0 b0 hg
      refine ⟨hs.2.1, hs.2.2.1, fun x hx => hs.2.2.2 x (Nat.zero_le _) hx, ?_, ?_, ?_, ?_, ?_, rfl, rfl⟩
      · simp [ballocApply]
      · intro x hx; simp [ballocApply, hx]
      · intro j; simp [ballocApply]
      · intro x; simp [ballocApply]
      · intro x hx; simp [ballocApply, hx]
  · intro hfull
    rcases hg : ballocGo d 0 with _ | b0
    · unfold balloc; rw [hg]
    · have hs := ballocGo_some d 0 b0 hg
      have := hfull b0 hs.2.1
      rw [hs.2.2.1] at this
      exact absurd this (by simp)

/-- Disk on which `claim_C6_balloc`'s exhaustion hypothesis holds: a single
block whose bitmap bit is set. -/
def dFullC6 : Disk :=
  { size := 1, bitmap := fun _ => true, entries := fun _ _ => 0,
    bytes := fun _ _ => 0, itable := fun _ => ⟨0, 0, 0, 0, 0, fun _ => 0⟩ }

theorem claim_C6_witness : balloc dFullC6 = none :=
  (claim_C6_balloc dFullC6).2 (fun _ _ => rfl)

theorem ballocApply_bitmap (d : Disk) (b x : Nat) :
    (ballocApply d b).bitmap x = if x = b then true else d.bitmap x := rfl

theorem ballocApply_entries (d : Disk) (b x j : Nat) :
    (ballocApply d b).entries x j = if x = b then 0 else d.entries x j := by
  by_cases h : x = b <;> simp [ballocApply, h]

theorem ballocApply_bytes (d : Disk) (b x j : Nat) :
    (ballocApply d b).bytes x j = if x = b then 0 else d.bytes x j := by
  by_cases h : x = b <;> simp [ballocApply, h]

theorem setEntry_entries (d : Disk) (b j v b' j' : Nat) :
    (setEntry d b j v).entries b' j' = if b' = b ∧ j' = j then v else d.entries b' j' := rfl

theorem setEntry_bitmap (d : Disk) (b j v : Nat) : (setEntry d b j v).bitmap = d.bitmap := rfl

theorem setAddr_addrs (ip : Inode) (i v j : Nat) :
    (ip.setAddr i v).addrs j = if j = i then v else ip.addrs j := rfl

theorem balloc_inv (d : Disk) (b : Nat) (d' : Disk) (h : balloc d = some (b, d')) :
    ballocGo d 0 = some b ∧ d' = ballocApply d b := by
  unfold balloc at h
  rcases hg : ballocGo d 0 with _ | b0 <;> rw [hg] at h
  · exact absurd h (by simp)
  · simp only [Option.some.injEq, Prod.mk.injEq] at h
    obtain ⟨h1, h2⟩ := h
    subst h1
    exact ⟨rfl, h2.symm⟩

theorem getOrAllocSlot_some (d : Disk) (ip : Inode) (i a : Nat) (d' : Disk) (ip' : Inode)
    (h : getOrAllocSlot d ip i = some (a, d', ip')) :
    ip'.addrs i = a ∧
      ((ip.addrs i ≠ 0 ∧ a = ip.addrs i ∧ d' = d ∧ ip' = ip) ∨
       (ip.addrs i = 0 ∧ ballocGo d 0 = some a ∧ d' = ballocApply d a ∧
        ip' = ip.setAddr i a)) := by
  unfold getOrAllocSlot at h
  split at h
  case isTrue h0 =>
    rcases hb : balloc d with _ | ⟨b, d1⟩ <;> rw [hb] at h
    · exact absurd h (by simp)
    · simp only [Option.some.injEq, Prod.mk.injEq] at h
      obtain ⟨h1, h2, h3⟩ := h
      have hi := balloc_inv d b d1 hb
      refine ⟨?_, Or.inr ⟨h0, ?_, ?_, ?_⟩⟩
      · rw [← h3, ← h1]; simp [setAddr_addrs]
      · rw [← h1]; exact hi.1
      · rw [← h2, ← h1]; exact hi.2
      · rw [← h3, ← h1]
  case isFalse h0 =>
    simp only [Option.some.injEq, Prod.mk.injEq] at h
    obtain ⟨rfl, rfl, rfl⟩ := h
    exact ⟨rfl, Or.inl ⟨h0, rfl, rfl, rfl⟩⟩

theorem getOrAllocEntry_some (d : Disk) (blk j a : Nat) (d' : Disk)
    (h : getOrAllocEntry d blk j = some (a, d')) :
    d'.entries blk j = a ∧
      ((d.entries blk j ≠ 0 ∧ a = d.entries blk j ∧ d' = d) ∨
       (d.entries blk j = 0 ∧ ballocGo d 0 = some a ∧
        d' = setEntry (ballocApply d a) blk j a)) := by
  unfold getOrAllocEntry at h
  split at h
  case isTrue h0 =>
    rcases hb : balloc d with _ | ⟨b, d1⟩ <;> rw [hb] at h
    · exact absurd h (by simp)
    · simp only [Option.some.injEq, Prod.mk.injEq] at h
      obtain ⟨h1, h2⟩ := h
      have hi := balloc_inv d b d1 hb
      refine ⟨?_, Or.inr ⟨h0, ?_, ?_⟩⟩
      · rw [← h2]; simp only [setEntry_entries, and_self, if_true]; exact h1
      · rw [← h1]; exact hi.1
      · rw [← h2, ← h1, hi.2]
  case isFalse h0 =>
    simp only [Option.some.injEq, Prod.mk.injEq] at h
    obtain ⟨rfl, rfl⟩ := h
    exact ⟨rfl, Or.inl ⟨h0, rfl, rfl⟩⟩

/-- Structural well-formedness of the double-indirect path for logical
block `bn`: a present double-indirect block is marked allocated in the
bitmap, and a present outer entry on `bn`'s path is marked allocated and
differs from the double-indirect block itself.  Any consistent file-system
state satisfies this (every stored address points into allocated storage
and index blocks are distinct); states violating it make the C code read
and write overlapping buffers. -/
def WfDouble (d : Disk) (ip : Inode) (bn : Nat) : Prop :=
  ip.addrs (NDIRECT + 1) ≠ 0 →
    d.bitmap (ip.addrs (NDIRECT + 1)) = true ∧
    (d.entries (ip.addrs (NDIRECT + 1)) ((bn - NDIRECT - NINDIRECT) / NINDIRECT) ≠ 0 →
      d.bitmap (d.entries (ip.addrs (NDIRECT + 1))
        ((bn - NDIRECT - NINDIRECT) / NINDIRECT)) = true ∧
      d.entries (ip.addrs (NDIRECT + 1)) ((bn - NDIRECT - NINDIRECT) / NINDIRECT) ≠
        ip.addrs (NDIRECT + 1))

instance (d : Disk) (ip : Inode) (bn : Nat) : Decidable (WfDouble d ip bn) := by
  unfold WfDouble
  infer_instance

/-- C1: `bmap` selects its tier by range on the logical block index `bn`.
Success implies `bn < MAXFILE` (for `bn ≥ MAXFILE` the code panics,
modelled `none`, so translation fails fatally there).  Below `NDIRECT` the
returned address is the (possibly freshly allocated) direct-table entry at
index `bn`, and comes from the pre-state table when that entry was already
set; in `[NDIRECT, NDIRECT+NINDIRECT)` it is entry `bn - NDIRECT` of the
single-indirect index block; in `[NDIRECT+NINDIRECT, MAXFILE)` it is entry
`(bn - NDIRECT - NINDIRECT) % NINDIRECT` of the inner index block selected
by entry `(bn - NDIRECT - NINDIRECT) / NINDIRECT` of the double-indirect
index block, under the structural well-formedness `WfDouble` of the
double-indirect path. -/
theorem claim_C1_bmap (d : Disk) (ip : Inode) (bn a : Nat) (d' : Disk) (ip' : Inode)
    (h : bmap d ip bn = some (a, d', ip')) :
    bn < MAXFILE ∧
    (bn < NDIRECT →
      a = ip'.addrs bn ∧ (ip.addrs bn ≠ 0 → a = ip.addrs bn ∧ d' = d ∧ ip' = ip)) ∧
    (NDIRECT ≤ bn → bn < NDIRECT + NINDIRECT →
      a = d'.entries (ip'.addrs NDIRECT) (bn - NDIRECT)) ∧
    (NDIRECT + NINDIRECT ≤ bn → WfDouble d ip bn →
      a = d'.entries
            (d'.entries (ip'.addrs (NDIRECT + 1)) ((bn - NDIRECT - NINDIRECT) / NINDIRECT))
            ((bn - NDIRECT - NINDIRECT) % NINDIRECT)) := by
  unfold bmap at h
  split at h
  case isTrue h1 =>
    have hs := getOrAllocSlot_some d ip bn a d' ip' h
    refine ⟨by simp only [MAXFILE, NDIRECT, NINDIRECT, BSIZE] at *; omega, ?_, ?_, ?_⟩
    · intro _
      refine ⟨hs.1.symm, fun hnz => ?_⟩
      rcases hs.2 with ⟨_, ha, hd, hip⟩ | ⟨hz, _⟩
      · exact ⟨ha, hd, hip⟩
      · exact absurd hz hnz
    · intro hge _
      exact absurd h1 (by omega)
    · intro hge _
      exact absurd h1 (by simp only [NDIRECT, NINDIRECT, BSIZE] at *; omega)
  case isFalse h1 =>
    split at h
    case isTrue h2 =>
      split at h
      case h_1 saddr d1 ip1 heq1 =>
        split at h
        case h_1 a2 d2 heq2 =>
          simp only [Option.some.injEq, Prod.mk.injEq] at h
          obtain ⟨ha, hd, hip⟩ := h
          have hs1 := getOrAllocSlot_some d ip NDIRECT saddr d1 ip1 heq1
          have hs2 := getOrAllocEntry_some d1 saddr (bn - NDIRECT) a2 d2 heq2
          refine ⟨?_, ?_, ?_, ?_⟩
          · simp only [MAXFILE, NDIRECT, NINDIRECT, BSIZE] at *; omega
          · intro hlt; exact absurd hlt h1
          · intro _ _
            rw [← ha, ← hd, ← hip, hs1.1]
            exact hs2.1.symm
          · intro hge _
            exact absurd h2 (by simp only [NDIRECT, NINDIRECT, BSIZE] at *; omega)
        case h_2 heq2 => exact absurd h (by simp)
      case h_2 heq1 => exact absurd h (by simp)
    case isFalse h2 =>
      split at h
      case isTrue h3 =>
        split at h
        case h_1 daddr d1 ip1 heq1 =>
          split at h
          case h_1 iaddr d2 heq2 =>
            split at h
            case h_1 t d3 heq3 =>
              simp only [Option.some.injEq, Prod.mk.injEq] at h
              obtain ⟨ha, hd, hip⟩ := h
              have hs1 := getOrAllocSlot_some d ip (NDIRECT + 1) daddr d1 ip1 heq1
              have hs2 := getOrAllocEntry_some d1 daddr
                ((bn - NDIRECT - NINDIRECT) / NINDIRECT) iaddr d2 heq2
              have hs3 := getOrAllocEntry_some d2 iaddr
                ((bn - NDIRECT - NINDIRECT) % NINDIRECT) t d3 heq3
              refine ⟨?_, ?_, ?_, ?_⟩
              · simp only [MAXFILE, NDIRECT, NINDIRECT, BSIZE] at *; omega
              · intro hlt; exact absurd hlt h1
              · intro _ hlt
                exact absurd hlt (by simp only [NDIRECT, NINDIRECT, BSIZE] at *; omega)
              · intro hge hwf
                rw [← ha, ← hd, ← hip, hs1.1]
                have G1 : d1.bitmap daddr = true := by
                  rcases hs1.2 with ⟨hnz, ha1, hd1, hip1⟩ | ⟨hz1, hb1, hd1, hip1⟩
                  · subst hd1
                    rw [ha1]
                    exact (hwf hnz).1
                  · subst hd1
                    simp [ballocApply_bitmap]
                have G2 : d2.bitmap daddr = true ∧ d2.bitmap iaddr = true ∧ daddr ≠ iaddr := by
                  rcases hs2.2 with ⟨hnz2, ha2, hd2⟩ | ⟨hz2, hb2, hd2⟩
                  · subst hd2
                    rcases hs1.2 with ⟨hnz, ha1, hd1, hip1⟩ | ⟨hz1, hb1, hd1, hip1⟩
                    · subst hd1
                      have W := hwf hnz
                      rw [← ha1] at W
                      have W2 := W.2 hnz2
                      rw [← ha2] at W2
                      exact ⟨ha1 ▸ W.1, W2.1, fun e => W2.2 e.symm⟩
                    · subst hd1
                      simp [ballocApply_entries] at hnz2
                  · have hfree : d1.bitmap iaddr = false :=
                      (ballocGo_some d1 0 iaddr hb2).2.2.1
                    have hne : daddr ≠ iaddr := by
                      intro e
                      rw [← e, G1] at hfree
                      cases hfree
                    subst hd2
                    refine ⟨?_, ?_, hne⟩
                    · rw [setEntry_bitmap, ballocApply_bitmap, if_neg hne]
                      exact G1
                    · rw [setEntry_bitmap, ballocApply_bitmap, if_pos rfl]
                rcases hs3.2 with ⟨hnz3, ha3, hd3⟩ | ⟨hz3, hb3, hd3⟩
                · subst hd3
                  rw [hs2.1]
                  exact ha3
                · have hfree3 : d2.bitmap t = false :=
                    (ballocGo_some d2 0 t hb3).2.2.1
                  have hdt : daddr ≠ t := by
                    intro e
                    rw [← e, G2.1] at hfree3
                    cases hfree3
                  have hit : iaddr ≠ t := by
                    intro e
                    rw [← e, G2.2.1] at hfree3
                    cases hfree3
                  subst hd3
                  rw [show (setEntry (ballocApply d2 t) iaddr
                        ((bn - NDIRECT - NINDIRECT) % NINDIRECT) t).entries daddr
                        ((bn - NDIRECT - NINDIRECT) / NINDIRECT) = iaddr by
                    rw [setEntry_entries,
                      if_neg (fun hc => G2.2.2 hc.1),
                      ballocApply_entries, if_neg hdt]
                    exact hs2.1]
                  rw [setEntry_entries, if_pos ⟨rfl, rfl⟩]
            case h_2 heq3 => exact absurd h (by simp)
          case h_2 heq2 => exact absurd h (by simp)
        case h_2 heq1 => exact absurd h (by simp)
      case isFalse h3 => exact absurd h (by simp)

/-- Disk used to exercise `claim_C1_bmap` on the double-indirect tier:
block 7 is the double-indirect block, its entry 0 points to inner index
block 8, whose entry 5 points to data block 9; all three are marked
allocated. -/
def dC1 : Disk :=
  { size := 20
    bitmap := fun b => decide (b < 10)
    entries := fun b j =>
      if b = 7 ∧ j = 0 then 8 else if b = 8 ∧ j = 5 then 9 else 0
    bytes := fun _ _ => 0
    itable := fun _ => ⟨0, 0, 0, 0, 0, fun _ => 0⟩ }

/-- Inode whose double-indirect slot points at block 7 of `dC1`. -/
def ipC1 : Inode :=
  { dev := 1, inum := 1, ref := 1, valid := 1, type := 2, major := 0, minor := 0,
    nlink := 1, size := 0, addrs := fun j => if j = 12 then 7 else 0 }

theorem claim_C1_witness :
    (9 : Nat) = dC1.entries
      (dC1.entries (ipC1.addrs (NDIRECT + 1)) ((144 - NDIRECT - NINDIRECT) / NINDIRECT))
      ((144 - NDIRECT - NINDIRECT) % NINDIRECT) :=
  (claim_C1_bmap dC1 ipC1 144 9 dC1 ipC1 rfl).2.2.2 (by decide) (by decide)

theorem bfree_some (d : Disk) (b : Nat) (d' : Disk) (h : bfree d b = some d') :
    d.bitmap b = true ∧ d'.bitmap b = false ∧
    (∀ x, x ≠ b → d'.bitmap x = d.bitmap x) ∧
    d'.entries = d.entries ∧ d'.bytes = d.bytes ∧ d'.itable = d.itable ∧
    d'.size = d.size := by
  unfold bfree at h
  split at h
  case isTrue hb =>
    simp only [Option.some.injEq] at h
    subst h
    exact ⟨hb, by simp, fun x hx => by simp [hx], rfl, rfl, rfl, rfl⟩
  case isFalse hb => exact absurd h (by simp)

theorem bfree_keeps_false (d : Disk) (b : Nat) (d' : Disk) (h : bfree d b = some d')
    (x : Nat) (hx : d.bitmap x = false) : d'.bitmap x = false := by
  have hs := bfree_some d b d' h
  by_cases hxb : x = b
  · subst hxb; exact hs.2.1
  · rw [hs.2.2.1 x hxb]; exact hx

theorem foldFreeEnt_spec (a : Nat → Nat) (l : List Nat) : ∀ d d',
    foldM1 (fun dd j => if a j ≠ 0 then bfree dd (a j) else some dd) d l = some d' →
    d'.entries = d.entries ∧ d'.bytes = d.bytes ∧ d'.itable = d.itable ∧
    d'.size = d.size ∧
    (∀ x, d'.bitmap x = true → d.bitmap x = true) ∧
    (∀ j ∈ l, a j ≠ 0 → d'.bitmap (a j) = false) := by
  induction l with
  | nil =>
    intro d d' h
    simp only [foldM1, Option.some.injEq] at h
    subst h
    exact ⟨rfl, rfl, rfl, rfl, fun _ hx => hx, by simp⟩
  | cons j l ih =>
    intro d d' h
    simp only [foldM1] at h
    split at h
    case h_1 d1 heq =>
      split at heq
      case isTrue hnz =>
        have hb := bfree_some d (a j) d1 heq
        have hrest := ih d1 d' h
        refine ⟨hrest.1.trans hb.2.2.2.1, hrest.2.1.trans hb.2.2.2.2.1,
          hrest.2.2.1.trans hb.2.2.2.2.2.1, hrest.2.2.2.1.trans hb.2.2.2.2.2.2, ?_, ?_⟩
        · intro x hx
          have h1 := hrest.2.2.2.2.1 x hx
          by_cases hxb : x = a j
          · subst hxb; rw [hb.2.1] at h1; cases h1
          · rw [hb.2.2.1 x hxb] at h1; exact h1
        · intro j' hj' hnz'
          rcases List.mem_cons.mp hj' with rfl | hj'
          · rcases hfin : d'.bitmap (a j') with _ | _
            · rfl
            · have := hrest.2.2.2.2.1 _ hfin
              rw [hb.2.1] at this
              cases this
          · exact hrest.2.2.2.2.2 j' hj' hnz'
      case isFalse hnz =>
        simp only [Option.some.injEq] at heq
        subst heq
        have hrest := ih d d' h
        refine ⟨hrest.1, hrest.2.1, hrest.2.2.1, hrest.2.2.2.1, hrest.2.2.2.2.1, ?_⟩
        intro j' hj' hnz'
        rcases List.mem_cons.mp hj' with rfl | hj'
        · exact absurd hnz' (by simpa using hnz)
        · exact hrest.2.2.2.2.2 j' hj' hnz'
    case h_2 heq => exact absurd h (by simp)

theorem freeIndirect_spec (d : Disk) (blk : Nat) (d' : Disk)
    (h : freeIndirect d blk = some d') :
    d'.entries = d.entries ∧ d'.bytes = d.bytes ∧ d'.itable = d.itable ∧
    d'.size = d.size ∧
    (∀ x, d'.bitmap x = true → d.bitmap x = true) ∧
    d'.bitmap blk = false ∧
    (∀ j, j < NINDIRECT → d.entries blk j ≠ 0 →
      d'.bitmap (d.entries blk j) = false) := by
  unfold freeIndirect at h
  split at h
  case h_1 d1 heq =>
    have hf := foldFreeEnt_spec (d.entries blk) (List.range NINDIRECT) d d1 heq
    have hb := bfree_some d1 blk d' h
    refine ⟨hb.2.2.2.1.trans hf.1, hb.2.2.2.2.1.trans hf.2.1,
      hb.2.2.2.2.2.1.trans hf.2.2.1, hb.2.2.2.2.2.2.trans hf.2.2.2.1, ?_, hb.2.1, ?_⟩
    · intro x hx
      apply hf.2.2.2.2.1
      by_cases hxb : x = blk
      · subst hxb; exact hb.1
      · rw [← hb.2.2.1 x hxb]; exact hx
    · intro j hj hnz
      exact bfree_keeps_false d1 blk d' h _
        (hf.2.2.2.2.2 j (List.mem_range.mpr hj) hnz)
  case h_2 heq => exact absurd h (by simp)

theorem foldFreeSlot_spec (l : List Nat) : ∀ d ip d' ip', l.Nodup →
    foldM1 freeSlot (d, ip) l = some (d', ip') →
    d'.entries = d.entries ∧ d'.bytes = d.bytes ∧ d'.itable = d.itable ∧
    d'.size = d.size ∧
    (∀ x, d'.bitmap x = true → d.bitmap x = true) ∧
    (∀ i ∈ l, ip'.addrs i = 0) ∧
    (∀ i, i ∉ l → ip'.addrs i = ip.addrs i) ∧
    (∀ i ∈ l, ip.addrs i ≠ 0 → d'.bitmap (ip.addrs i) = false) ∧
    ip'.dev = ip.dev ∧ ip'.inum = ip.inum ∧ ip'.type = ip.type ∧
    ip'.major = ip.major ∧ ip'.minor = ip.minor ∧ ip'.nlink = ip.nlink ∧
    ip'.size = ip.size := by
  induction l with
  | nil =>
    intro d ip d' ip' _ h
    simp only [foldM1, Option.some.injEq, Prod.mk.injEq] at h
    obtain ⟨h1, h2⟩ := h
    subst h1; subst h2
    exact ⟨rfl, rfl, rfl, rfl, fun _ hx => hx, by simp, fun _ _ => rfl, by simp,
      rfl, rfl, rfl, rfl, rfl, rfl, rfl⟩
  | cons i l ih =>
    intro d ip d' ip' hnd h
    have hndl := List.nodup_cons.mp hnd
    simp only [foldM1] at h
    split at h
    case h_1 p1 heq =>
      obtain ⟨d1, ip1⟩ := p1
      unfold freeSlot at heq
      split at heq
      case isTrue hnz =>
        split at heq
        case h_1 d2 heq2 =>
          simp only [Option.some.injEq, Prod.mk.injEq] at heq
          obtain ⟨hd1, hip1⟩ := heq
          subst hd1; subst hip1
          have hb := bfree_some d (ip.addrs i) d2 heq2
          have hrest := ih d2 (ip.setAddr i 0) d' ip' hndl.2 h
          have haddr : ∀ i', i' ≠ i → (ip.setAddr i 0).addrs i' = ip.addrs i' := by
            intro i' hi'; rw [setAddr_addrs, if_neg hi']
          refine ⟨hrest.1.trans hb.2.2.2.1, hrest.2.1.trans hb.2.2.2.2.1,
            hrest.2.2.1.trans hb.2.2.2.2.2.1, hrest.2.2.2.1.trans hb.2.2.2.2.2.2,
            ?_, ?_, ?_, ?_, hrest.2.2.2.2.2.2.2.2.1, hrest.2.2.2.2.2.2.2.2.2.1,
            hrest.2.2.2.2.2.2.2.2.2.2.1, hrest.2.2.2.2.2.2.2.2.2.2.2.1,
            hrest.2.2.2.2.2.2.2.2.2.2.2.2.1, hrest.2.2.2.2.2.2.2.2.2.2.2.2.2.1,
            hrest.2.2.2.2.2.2.2.2.2.2.2.2.2.2⟩
          · intro x hx
            have h1 := hrest.2.2.2.2.1 x hx
            by_cases hxb : x = ip.addrs i
            · subst hxb; rw [hb.2.1] at h1; cases h1
            · rw [hb.2.2.1 x hxb] at h1; exact h1
          · intro i' hi'
            rcases List.mem_cons.mp hi' with rfl | hi'
            · rw [hrest.2.2.2.2.2.2.1 i' hndl.1, setAddr_addrs, if_pos rfl]
            · exact hrest.2.2.2.2.2.1 i' hi'
          · intro i' hi'
            have hne : i' ≠ i := fun e => hi' (e ▸ List.mem_cons_self i l)
            rw [hrest.2.2.2.2.2.2.1 i' (fun hm => hi' (List.mem_cons_of_mem i hm)),
              haddr i' hne]
          · intro i' hi' hnz'
            rcases List.mem_cons.mp hi' with rfl | hi'
            · rcases hfin : d'.bitmap (ip.addrs i') with _ | _
              · rfl
              · have := hrest.2.2.2.2.1 _ hfin
                rw [hb.2.1] at this
                cases this
            · have := hrest.2.2.2.2.2.2.2.1 i' hi'
              rw [haddr i' (fun e => hndl.1 (e ▸ hi'))] at this
              exact this hnz'
        case h_2 heq2 => exact absurd heq (by simp)
      case isFalse hnz =>
        simp only [Option.some.injEq, Prod.mk.injEq] at heq
        obtain ⟨hd1, hip1⟩ := heq
        subst hd1; subst hip1
        have hz : ip.addrs i = 0 := by simpa using hnz
        have hrest := ih d ip d' ip' hndl.2 h
        refine ⟨hrest.1, hrest.2.1, hrest.2.2.1, hrest.2.2.2.1, hrest.2.2.2.2.1,
          ?_, ?_, ?_, hrest.2.2.2.2.2.2.2.2.1, hrest.2.2.2.2.2.2.2.2.2.1,
          hrest.2.2.2.2.2.2.2.2.2.2.1, hrest.2.2.2.2.2.2.2.2.2.2.2.1,
          hrest.2.2.2.2.2.2.2.2.2.2.2.2.1, hrest.2.2.2.2.2.2.2.2.2.2.2.2.2.1,
          hrest.2.2.2.2.2.2.2.2.2.2.2.2.2.2⟩
        · intro i' hi'
          rcases List.mem_cons.mp hi' with rfl | hi'
          · rw [hrest.2.2.2.2.2.2.1 i' hndl.1]; exact hz
          · exact hrest.2.2.2.2.2.1 i' hi'
        · intro i' hi'
          exact hrest.2.2.2.2.2.2.1 i' (fun hm => hi' (List.mem_cons_of_mem i hm))
        · intro i' hi' hnz'
          rcases List.mem_cons.mp hi' with rfl | hi'
          · exact absurd hnz' (by simpa using hnz)
          · exact hrest.2.2.2.2.2.2.2.1 i' hi' hnz'
    case h_2 heq => exact absurd h (by simp)

theorem foldFreeInd_spec (a : Nat → Nat) (l : List Nat) : ∀ d d',
    foldM1 (fun dd i => if a i ≠ 0 then freeIndirect dd (a i) else some dd) d l = some d' →
    d'.entries = d.entries ∧ d'.bytes = d.bytes ∧ d'.itable = d.itable ∧
    d'.size = d.size ∧
    (∀ x, d'.bitmap x = true → d.bitmap x = true) ∧
    (∀ i ∈ l, a i ≠ 0 →
      d'.bitmap (a i) = false ∧
      ∀ j, j < NINDIRECT → d.entries (a i) j ≠ 0 →
        d'.bitmap (d.entries (a i) j) = false) := by
  induction l with
  | nil =>
    intro d d' h
    simp only [foldM1, Option.some.injEq] at h
    subst h
    exact ⟨rfl, rfl, rfl, rfl, fun _ hx => hx, by simp⟩
  | cons i l ih =>
    intro d d' h
    simp only [foldM1] at h
    split at h
    case h_1 d1 heq =>
      split at heq
      case isTrue hnz =>
        have hf := freeIndirect_spec d (a i) d1 heq
        have hrest := ih d1 d' h
        have hmono : ∀ x, d'.bitmap x = true → d.bitmap x = true := fun x hx =>
          hf.2.2.2.2.1 x (hrest.2.2.2.2.1 x hx)
        have hkeep : ∀ x, d1.bitmap x = false → d'.bitmap x = false := by
          intro x hx
          rcases hfin : d'.bitmap x with _ | _
          · rfl
          · rw [hrest.2.2.2.2.1 x hfin] at hx; cases hx
        refine ⟨hrest.1.trans hf.1, hrest.2.1.trans hf.2.1, hrest.2.2.1.trans hf.2.2.1,
          hrest.2.2.2.1.trans hf.2.2.2.1, hmono, ?_⟩
        intro i' hi' hnz'
        rcases List.mem_cons.mp hi' with rfl | hi'
        · refine ⟨hkeep _ hf.2.2.2.2.2.1, ?_⟩
          intro j hj hjnz
          exact hkeep _ (hf.2.2.2.2.2.2 j hj hjnz)
        · have := hrest.2.2.2.2.2 i' hi' hnz'
          rw [hf.1] at this
          exact this
      case isFalse hnz =>
        simp only [Option.some.injEq] at heq
        subst heq
        have hrest := ih d d' h
        refine ⟨hrest.1, hrest.2.1, hrest.2.2.1, hrest.2.2.2.1, hrest.2.2.2.2.1, ?_⟩
        intro i' hi' hnz'
        rcases List.mem_cons.mp hi' with rfl | hi'
        · exact absurd hnz' (by simpa using hnz)
        · exact hrest.2.2.2.2.2 i' hi' hnz'
    case h_2 heq => exact absurd h (by simp)

/-- C2: after a successful `itrunc`, the inode's size is 0, all
`NDIRECT+2` address-table slots are 0, every data block previously
reachable from the inode (direct blocks, entries of the single-indirect
block, entries of the inner double-indirect index blocks) is freed in the
bitmap, every index block (single-indirect, outer double-indirect and all
referenced inner index blocks) is freed, and the inode image is persisted
through the log (`iupdate`). -/
theorem claim_C2_itrunc (d : Disk) (ip : Inode) (d' : Disk) (ip' : Inode)
    (h : itrunc d ip = some (d', ip')) :
    ip'.size = 0 ∧
    (∀ i, i < NDIRECT + 2 → ip'.addrs i = 0) ∧
    (∀ i, i < NDIRECT → ip.addrs i ≠ 0 → d'.bitmap (ip.addrs i) = false) ∧
    (ip.addrs NDIRECT ≠ 0 →
      d'.bitmap (ip.addrs NDIRECT) = false ∧
      ∀ j, j < NINDIRECT → d.entries (ip.addrs NDIRECT) j ≠ 0 →
        d'.bitmap (d.entries (ip.addrs NDIRECT) j) = false) ∧
    (ip.addrs (NDIRECT + 1) ≠ 0 →
      d'.bitmap (ip.addrs (NDIRECT + 1)) = false ∧
      ∀ i, i < NINDIRECT → d.entries (ip.addrs (NDIRECT + 1)) i ≠ 0 →
        d'.bitmap (d.entries (ip.addrs (NDIRECT + 1)) i) = false ∧
        ∀ j, j < NINDIRECT → d.entries (d.entries (ip.addrs (NDIRECT + 1)) i) j ≠ 0 →
          d'.bitmap (d.entries (d.entries (ip.addrs (NDIRECT + 1)) i) j) = false) ∧
    d'.itable ip.inum = ⟨ip'.type, ip'.major, ip'.minor, ip'.nlink, 0, ip'.addrs⟩ := by
  unfold itrunc at h
  split at h
  case h_1 heq1 => exact absurd h (by simp)
  case h_2 d1 ip1 heq1 =>
    have hph1 := foldFreeSlot_spec (List.range NDIRECT) d ip d1 ip1
      (List.nodup_range _) heq1
    split at h
    case h_1 heq2 => exact absurd h (by simp)
    case h_2 d2 ip2 heq2 =>
      have S2 : (d2.entries = d1.entries ∧ d2.bytes = d1.bytes ∧
          d2.itable = d1.itable ∧ d2.size = d1.size) ∧
          (∀ x, d2.bitmap x = true → d1.bitmap x = true) ∧
          (∀ i, i ≠ NDIRECT → ip2.addrs i = ip1.addrs i) ∧
          ip2.addrs NDIRECT = 0 ∧
          (ip1.addrs NDIRECT ≠ 0 →
            d2.bitmap (ip1.addrs NDIRECT) = false ∧
            ∀ j, j < NINDIRECT → d1.entries (ip1.addrs NDIRECT) j ≠ 0 →
              d2.bitmap (d1.entries (ip1.addrs NDIRECT) j) = false) ∧
          ip2.dev = ip1.dev ∧ ip2.inum = ip1.inum ∧ ip2.type = ip1.type ∧
          ip2.major = ip1.major ∧ ip2.minor = ip1.minor ∧ ip2.nlink = ip1.nlink ∧
          ip2.size = ip1.size := by
        split at heq2
        case isTrue hbsi =>
          split at heq2
          case h_1 d2a heq2b =>
            simp only [Option.some.injEq, Prod.mk.injEq] at heq2
            obtain ⟨hda, hip2⟩ := heq2
            subst hda; subst hip2
            have hf := freeIndirect_spec d1 (ip1.addrs NDIRECT) d2a heq2b
            refine ⟨⟨hf.1, hf.2.1, hf.2.2.1, hf.2.2.2.1⟩, hf.2.2.2.2.1, ?_, ?_, ?_,
              rfl, rfl, rfl, rfl, rfl, rfl, rfl⟩
            · intro i hi; rw [setAddr_addrs, if_neg hi]
            · rw [setAddr_addrs, if_pos rfl]
            · intro _; exact ⟨hf.2.2.2.2.2.1, hf.2.2.2.2.2.2⟩
          case h_2 heq2b => exact absurd heq2 (by simp)
        case isFalse hbsi =>
          simp only [Option.some.injEq, Prod.mk.injEq] at heq2
          obtain ⟨hda, hip2⟩ := heq2
          subst hda; subst hip2
          have hz : ip1.addrs NDIRECT = 0 := by simpa using hbsi
          exact ⟨⟨rfl, rfl, rfl, rfl⟩, fun _ hx => hx, fun _ _ => rfl, hz,
            fun hnz => absurd hz hnz, rfl, rfl, rfl, rfl, rfl, rfl, rfl⟩
      split at h
      case h_1 heq3 => exact absurd h (by simp)
      case h_2 d3 ip3 heq3 =>
        have S3 : (d3.entries = d2.entries ∧ d3.bytes = d2.bytes ∧
            d3.itable = d2.itable ∧ d3.size = d2.size) ∧
            (∀ x, d3.bitmap x = true → d2.bitmap x = true) ∧
            (∀ i, i ≠ NDIRECT + 1 → ip3.addrs i = ip2.addrs i) ∧
            ip3.addrs (NDIRECT + 1) = 0 ∧
            (ip2.addrs (NDIRECT + 1) ≠ 0 →
              d3.bitmap (ip2.addrs (NDIRECT + 1)) = false ∧
              ∀ i, i < NINDIRECT → d2.entries (ip2.addrs (NDIRECT + 1)) i ≠ 0 →
                d3.bitmap (d2.entries (ip2.addrs (NDIRECT + 1)) i) = false ∧
                ∀ j, j < NINDIRECT →
                  d2.entries (d2.entries (ip2.addrs (NDIRECT + 1)) i) j ≠ 0 →
                  d3.bitmap (d2.entries (d2.entries (ip2.addrs (NDIRECT + 1)) i) j) =
                    false) ∧
            ip3.dev = ip2.dev ∧ ip3.inum = ip2.inum ∧ ip3.type = ip2.type ∧
            ip3.major = ip2.major ∧ ip3.minor = ip2.minor ∧ ip3.nlink = ip2.nlink ∧
            ip3.size = ip2.size := by
          split at heq3
          case isTrue hbdi =>
            split at heq3
            case h_1 dA heqA =>
              split at heq3
              case h_1 dB heqB =>
                simp only [Option.some.injEq, Prod.mk.injEq] at heq3
                obtain ⟨hdb, hip3⟩ := heq3
                subst hdb; subst hip3
                have hfold := foldFreeInd_spec (d2.entries (ip2.addrs (NDIRECT + 1)))
                  (List.range NINDIRECT) d2 dA heqA
                have hb := bfree_some dA (ip2.addrs (NDIRECT + 1)) dB heqB
                have keepB : ∀ x, dA.bitmap x = false → dB.bitmap x = false :=
                  fun x hx => bfree_keeps_false dA _ dB heqB x hx
                refine ⟨⟨hb.2.2.2.1.trans hfold.1, hb.2.2.2.2.1.trans hfold.2.1,
                  hb.2.2.2.2.2.1.trans hfold.2.2.1, hb.2.2.2.2.2.2.trans hfold.2.2.2.1⟩,
                  ?_, ?_, ?_, ?_, rfl, rfl, rfl, rfl, rfl, rfl, rfl⟩
                · intro x hx
                  apply hfold.2.2.2.2.1
                  by_cases hxb : x = ip2.addrs (NDIRECT + 1)
                  · subst hxb; rw [hb.2.1] at hx; cases hx
                  · rw [hb.2.2.1 x hxb] at hx; exact hx
                · intro i hi; rw [setAddr_addrs, if_neg hi]
                · rw [setAddr_addrs, if_pos rfl]
                · intro _
                  refine ⟨hb.2.1, ?_⟩
                  intro i hi hnz
                  have hc := hfold.2.2.2.2.2 i (List.mem_range.mpr hi) hnz
                  exact ⟨keepB _ hc.1, fun j hj hjnz => keepB _ (hc.2 j hj hjnz)⟩
              case h_2 heqB => exact absurd heq3 (by simp)
            case h_2 heqA => exact absurd heq3 (by simp)
          case isFalse hbdi =>
            simp only [Option.some.injEq, Prod.mk.injEq] at heq3
            obtain ⟨hdb, hip3⟩ := heq3
            subst hdb; subst hip3
            have hz : ip2.addrs (NDIRECT + 1) = 0 := by simpa using hbdi
            exact ⟨⟨rfl, rfl, rfl, rfl⟩, fun _ hx => hx, fun _ _ => rfl, hz,
              fun hnz => absurd hz hnz, rfl, rfl, rfl, rfl, rfl, rfl, rfl⟩
        simp only [Option.some.injEq, Prod.mk.injEq] at h
        obtain ⟨hd', hip'⟩ := h
        subst hd'; subst hip'
        have keep12 : ∀ x, d1.bitmap x = false → d2.bitmap x = false := by
          intro x hx
          rcases hfin : d2.bitmap x with _ | _
          · rfl
          · rw [S2.2.1 x hfin] at hx; cases hx
        have keep23 : ∀ x, d2.bitmap x = false → d3.bitmap x = false := by
          intro x hx
          rcases hfin : d3.bitmap x with _ | _
          · rfl
          · rw [S3.2.1 x hfin] at hx; cases hx
        have hbit : ∀ x, (iupdate d3 { ip3 with size := 0 }).bitmap x = d3.bitmap x :=
          fun _ => rfl
        have h1N : ip1.addrs NDIRECT = ip.addrs NDIRECT :=
          hph1.2.2.2.2.2.2.1 NDIRECT (fun hm => absurd (List.mem_range.mp hm) (by omega))
        have h1N1 : ip1.addrs (NDIRECT + 1) = ip.addrs (NDIRECT + 1) :=
          hph1.2.2.2.2.2.2.1 (NDIRECT + 1)
            (fun hm => absurd (List.mem_range.mp hm) (by omega))
        have h2N1 : ip2.addrs (NDIRECT + 1) = ip.addrs (NDIRECT + 1) := by
          rw [S2.2.2.1 (NDIRECT + 1) (by omega), h1N1]
        refine ⟨rfl, ?_, ?_, ?_, ?_, ?_⟩
        · intro i hi
          show ip3.addrs i = 0
          rcases Nat.lt_or_ge i NDIRECT with hlt | hge
          · rw [S3.2.2.1 i (by omega), S2.2.2.1 i (by omega)]
            exact hph1.2.2.2.2.2.1 i (List.mem_range.mpr hlt)
          · by_cases hN : i = NDIRECT
            · subst hN
              rw [S3.2.2.1 NDIRECT (by omega)]
              exact S2.2.2.2.1
            · have hN1 : i = NDIRECT + 1 := by omega
              subst hN1
              exact S3.2.2.2.1
        · intro i hi hnz
          rw [hbit]
          exact keep23 _ (keep12 _
            (hph1.2.2.2.2.2.2.2.1 i (List.mem_range.mpr hi) hnz))
        · intro hnz
          have hnz1 : ip1.addrs NDIRECT ≠ 0 := by rw [h1N]; exact hnz
          have hc := S2.2.2.2.2.1 hnz1
          rw [h1N, hph1.1] at hc
          refine ⟨by rw [hbit]; exact keep23 _ hc.1, ?_⟩
          intro j hj hjnz
          rw [hbit]
          exact keep23 _ (hc.2 j hj hjnz)
        · intro hnz
          have hnz2 : ip2.addrs (NDIRECT + 1) ≠ 0 := by rw [h2N1]; exact hnz
          have hc := S3.2.2.2.2.1 hnz2
          have hent : d2.entries = d.entries := S2.1.1.trans hph1.1
          rw [h2N1, hent] at hc
          refine ⟨by rw [hbit]; exact hc.1, ?_⟩
          intro i hi hinz
          have hci := hc.2 i hi hinz
          exact ⟨by rw [hbit]; exact hci.1,
            fun j hj hjnz => by rw [hbit]; exact hci.2 j hj hjnz⟩
        · have hinum : ip3.inum = ip.inum := by
            rw [S3.2.2.2.2.2.2.1, S2.2.2.2.2.2.2.1, hph1.2.2.2.2.2.2.2.2.2.1]
          show (iupdate d3 { ip3 with size := 0 }).itable ip.inum = _
          unfold iupdate
          simp only
          rw [if_pos hinum.symm]

/-- Disk for the `claim_C2_itrunc` witness. -/
def dC2 : Disk :=
  { size := 4, bitmap := fun _ => false, entries := fun _ _ => 0,
    bytes := fun _ _ => 0, itable := fun _ => ⟨0, 0, 0, 0, 0, fun _ => 0⟩ }

/-- Inode for the `claim_C2_itrunc` witness: no blocks attached. -/
def ipC2 : Inode :=
  { dev := 1, inum := 3, ref := 1, valid := 1, type := 2, major := 0, minor := 0,
    nlink := 0, size := 7, addrs := fun _ => 0 }

theorem claim_C2_witness : ({ ipC2 with size := 0 } : Inode).size = 0 :=
  (claim_C2_itrunc dC2 ipC2 (iupdate dC2 { ipC2 with size := 0 })
    { ipC2 with size := 0 } rfl).1

theorem writeBytesRange_bytes (d : Disk) (b st : Nat) (s : Nat → Nat) (sp m blk x : Nat) :
    (writeBytesRange d b st s sp m).bytes blk x =
      if blk = b ∧ st ≤ x ∧ x < st + m then s (sp + (x - st)) else d.bytes blk x := rfl

theorem resolvedB_writeBytes (d : Disk) (b st : Nat) (s : Nat → Nat) (sp m : Nat)
    (ip : Inode) (bn : Nat) :
    resolvedB (writeBytesRange d b st s sp m) ip bn = resolvedB d ip bn := rfl

theorem addrOf_writeBytes (d : Disk) (b st : Nat) (s : Nat → Nat) (sp m : Nat)
    (ip : Inode) (bn : Nat) :
    addrOf (writeBytesRange d b st s sp m) ip bn = addrOf d ip bn := rfl

theorem resolved_bmap (d : Disk) (ip : Inode) (bn : Nat)
    (h : resolvedB d ip bn = true) :
    bmap d ip bn = some (addrOf d ip bn, d, ip) := by
  unfold resolvedB at h
  by_cases h1 : bn < NDIRECT
  · rw [if_pos h1] at h
    have hnz : ip.addrs bn ≠ 0 := by simpa using h
    have ha : addrOf d ip bn = ip.addrs bn := by unfold addrOf; rw [if_pos h1]
    rw [ha]
    unfold bmap
    rw [if_pos h1]
    unfold getOrAllocSlot
    rw [if_neg hnz]
  · rw [if_neg h1] at h
    by_cases h2 : bn - NDIRECT < NINDIRECT
    · rw [if_pos h2] at h
      simp only [Bool.and_eq_true, decide_eq_true_eq] at h
      obtain ⟨hA, hB⟩ := h
      have ha : addrOf d ip bn = d.entries (ip.addrs NDIRECT) (bn - NDIRECT) := by
        unfold addrOf; rw [if_neg h1, if_pos h2]
      have e1 : getOrAllocSlot d ip NDIRECT = some (ip.addrs NDIRECT, d, ip) := by
        unfold getOrAllocSlot; rw [if_neg hA]
      have e2 : getOrAllocEntry d (ip.addrs NDIRECT) (bn - NDIRECT) =
          some (d.entries (ip.addrs NDIRECT) (bn - NDIRECT), d) := by
        unfold getOrAllocEntry; rw [if_neg hB]
      rw [ha]
      unfold bmap
      rw [if_neg h1, if_pos h2]
      simp only [e1, e2]
    · rw [if_neg h2] at h
      split at h
      case neg.isTrue h3 =>
        simp only [Bool.and_eq_true, decide_eq_true_eq] at h
        obtain ⟨⟨hA, hB⟩, hC⟩ := h
        have ha : addrOf d ip bn =
            d.entries (d.entries (ip.addrs (NDIRECT + 1))
              ((bn - NDIRECT - NINDIRECT) / NINDIRECT))
              ((bn - NDIRECT - NINDIRECT) % NINDIRECT) := by
          unfold addrOf; rw [if_neg h1, if_neg h2]
        have e1 : getOrAllocSlot d ip (NDIRECT + 1) =
            some (ip.addrs (NDIRECT + 1), d, ip) := by
          unfold getOrAllocSlot; rw [if_neg hA]
        have e2 : getOrAllocEntry d (ip.addrs (NDIRECT + 1))
            ((bn - NDIRECT - NINDIRECT) / NINDIRECT) =
            some (d.entries (ip.addrs (NDIRECT + 1))
              ((bn - NDIRECT - NINDIRECT) / NINDIRECT), d) := by
          unfold getOrAllocEntry; rw [if_neg hB]
        have e3 : getOrAllocEntry d
            (d.entries (ip.addrs (NDIRECT + 1)) ((bn - NDIRECT - NINDIRECT) / NINDIRECT))
            ((bn - NDIRECT - NINDIRECT) % NINDIRECT) =
            some (d.entries (d.entries (ip.addrs (NDIRECT + 1))
                ((bn - NDIRECT - NINDIRECT) / NINDIRECT))
              ((bn - NDIRECT - NINDIRECT) % NINDIRECT), d) := by
          unfold getOrAllocEntry; rw [if_neg hC]
        rw [ha]
        unfold bmap
        rw [if_neg h1, if_neg h2, if_pos h3]
        simp only [e1, e2, e3]
      case neg.isFalse h3 => exact absurd h (by simp)

theorem readiLoop_spec (n : Nat) (d : Disk) (ip : Inode) (dst : Nat → Nat)
    (dstPos off : Nat)
    (hres : ∀ k, off ≤ k → k < off + n → resolvedB d ip (k / BSIZE) = true) :
    ∃ dst', readiLoop d ip dst dstPos off n = some (dst', d, ip) ∧
      (∀ j, j < n → dst' (dstPos + j) =
        d.bytes (addrOf d ip ((off + j) / BSIZE)) ((off + j) % BSIZE)) ∧
      (∀ j, j < dstPos ∨ dstPos + n ≤ j → dst' j = dst j) := by
  by_cases hn : n = 0
  · subst hn
    refine ⟨dst, ?_, fun j hj => absurd hj (by omega), fun j _ => rfl⟩
    unfold readiLoop
    simp
  · have hres0 : resolvedB d ip (off / BSIZE) = true :=
      hres off (Nat.le_refl _) (by omega)
    have e := resolved_bmap d ip (off / BSIZE) hres0
    have hblt : off % BSIZE < BSIZE := Nat.mod_lt _ (by simp [BSIZE])
    have hm1 : 1 ≤ min n (BSIZE - off % BSIZE) :=
      Nat.le_min.mpr ⟨Nat.one_le_iff_ne_zero.mpr hn, by omega⟩
    have hmn : min n (BSIZE - off % BSIZE) ≤ n := Nat.min_le_left _ _
    have hmB : min n (BSIZE - off % BSIZE) ≤ BSIZE - off % BSIZE := Nat.min_le_right _ _
    obtain ⟨dst2, hrec, hcopy, hold⟩ := readiLoop_spec (n - min n (BSIZE - off % BSIZE))
      d ip
      (fun j => if dstPos ≤ j ∧ j < dstPos + min n (BSIZE - off % BSIZE) then
          d.bytes (addrOf d ip (off / BSIZE)) (off % BSIZE + (j - dstPos))
        else dst j)
      (dstPos + min n (BSIZE - off % BSIZE)) (off + min n (BSIZE - off % BSIZE))
      (fun k hk1 hk2 => hres k (by omega) (by omega))
    refine ⟨dst2, ?_, ?_, ?_⟩
    · unfold readiLoop
      rw [if_neg hn]
      simp only [e]
      exact hrec
    · intro j hj
      by_cases hjm : j < min n (BSIZE - off % BSIZE)
      · have hjm' : j < BSIZE - off % BSIZE := lt_of_lt_of_le hjm hmB
        have hda : (off + j) / BSIZE = off / BSIZE := by
          simp only [BSIZE] at *; omega
        have hdb : (off + j) % BSIZE = off % BSIZE + j := by
          simp only [BSIZE] at *; omega
        rw [hda, hdb]
        have h1 := hold (dstPos + j) (Or.inl (by omega))
        rw [h1, if_pos ⟨by omega, by omega⟩]
        congr 1
        omega
      · have h1 := hcopy (j - min n (BSIZE - off % BSIZE)) (by omega)
        have e1 : dstPos + min n (BSIZE - off % BSIZE) +
            (j - min n (BSIZE - off % BSIZE)) = dstPos + j := by omega
        have e2 : off + min n (BSIZE - off % BSIZE) +
            (j - min n (BSIZE - off % BSIZE)) = off + j := by omega
        rw [e1, e2] at h1
        exact h1
    · intro j hj
      have h1 := hold j
        (by rcases hj with hj | hj
            · exact Or.inl (by omega)
            · exact Or.inr (by omega))
      rw [h1, if_neg]
      rcases hj with hj | hj
      · intro hc; omega
      · intro hc; omega
termination_by n

theorem writeiLoop_spec (n : Nat) (d : Disk) (ip : Inode) (src : Nat → Nat)
    (srcPos off : Nat)
    (hres : ∀ k, off ≤ k → k < off + n → resolvedB d ip (k / BSIZE) = true)
    (hdist : ∀ k1 k2, off ≤ k1 → k1 < off + n → off ≤ k2 → k2 < off + n →
      k1 / BSIZE ≠ k2 / BSIZE → addrOf d ip (k1 / BSIZE) ≠ addrOf d ip (k2 / BSIZE)) :
    ∃ d', writeiLoop d ip src srcPos off n = some (d', ip) ∧
      d'.size = d.size ∧ d'.bitmap = d.bitmap ∧ d'.entries = d.entries ∧
      d'.itable = d.itable ∧
      (∀ b x, (∀ k, off ≤ k → k < off + n → addrOf d ip (k / BSIZE) ≠ b) →
        d'.bytes b x = d.bytes b x) ∧
      (∀ j, j < n → d'.bytes (addrOf d ip ((off + j) / BSIZE)) ((off + j) % BSIZE) =
        src (srcPos + j)) := by
  by_cases hn : n = 0
  · subst hn
    refine ⟨d, ?_, rfl, rfl, rfl, rfl, fun b x _ => rfl, fun j hj => absurd hj (by omega)⟩
    unfold writeiLoop
    simp
  · have hres0 : resolvedB d ip (off / BSIZE) = true :=
      hres off (Nat.le_refl _) (by omega)
    have e := resolved_bmap d ip (off / BSIZE) hres0
    have hblt : off % BSIZE < BSIZE := Nat.mod_lt _ (by simp [BSIZE])
    have hm1 : 1 ≤ min n (BSIZE - off % BSIZE) :=
      Nat.le_min.mpr ⟨Nat.one_le_iff_ne_zero.mpr hn, by omega⟩
    have hmn : min n (BSIZE - off % BSIZE) ≤ n := Nat.min_le_left _ _
    have hmB : min n (BSIZE - off % BSIZE) ≤ BSIZE - off % BSIZE := Nat.min_le_right _ _
    obtain ⟨d2, hrec, hsz, hbm, hent, hitab, hframe, hcopy⟩ :=
      writeiLoop_spec (n - min n (BSIZE - off % BSIZE))
        (writeBytesRange d (addrOf d ip (off / BSIZE)) (off % BSIZE) src srcPos
          (min n (BSIZE - off % BSIZE)))
        ip src (srcPos + min n (BSIZE - off % BSIZE)) (off + min n (BSIZE - off % BSIZE))
        (fun k hk1 hk2 => by
          rw [resolvedB_writeBytes]
          exact hres k (by omega) (by omega))
        (fun k1 k2 hk1 hk2 hk3 hk4 hne => by
          rw [addrOf_writeBytes, addrOf_writeBytes]
          exact hdist k1 k2 (by omega) (by omega) (by omega) (by omega) hne)
    refine ⟨d2, ?_, hsz, hbm, hent, hitab, ?_, ?_⟩
    · unfold writeiLoop
      rw [if_neg hn]
      simp only [e]
      exact hrec
    · intro b x hb
      have h1 : d2.bytes b x = (writeBytesRange d (addrOf d ip (off / BSIZE))
          (off % BSIZE) src srcPos (min n (BSIZE - off % BSIZE))).bytes b x := by
        apply hframe
        intro k hk1 hk2
        rw [addrOf_writeBytes]
        exact hb k (by omega) (by omega)
      rw [h1, writeBytesRange_bytes, if_neg]
      intro hc
      exact hb off (Nat.le_refl _) (by omega) hc.1.symm
    · intro j hj
      by_cases hjm : j < min n (BSIZE - off % BSIZE)
      · have hjm' : j < BSIZE - off % BSIZE := lt_of_lt_of_le hjm hmB
        have hda : (off + j) / BSIZE = off / BSIZE := by
          simp only [BSIZE] at *; omega
        have hdb : (off + j) % BSIZE = off % BSIZE + j := by
          simp only [BSIZE] at *; omega
        rw [hda, hdb]
        have hfr : d2.bytes (addrOf d ip (off / BSIZE)) (off % BSIZE + j) =
            (writeBytesRange d (addrOf d ip (off / BSIZE)) (off % BSIZE) src srcPos
              (min n (BSIZE - off % BSIZE))).bytes (addrOf d ip (off / BSIZE))
              (off % BSIZE + j) := by
          apply hframe
          intro k hk1 hk2
          rw [addrOf_writeBytes]
          have hkub : k < off + n := by omega
          have hmx : min n (BSIZE - off % BSIZE) = BSIZE - off % BSIZE := by
            rcases Nat.le_total n (BSIZE - off % BSIZE) with hno | hno
            · exfalso
              rw [Nat.min_eq_left hno] at hk1
              omega
            · exact Nat.min_eq_right hno
          rw [hmx] at hk1
          apply hdist k off (by omega) hkub (Nat.le_refl _) (by omega)
          simp only [BSIZE] at hk1 hblt ⊢
          omega
        rw [hfr, writeBytesRange_bytes, if_pos ⟨rfl, by omega, by omega⟩]
        congr 1
        omega
      · have h1 := hcopy (j - min n (BSIZE - off % BSIZE)) (by omega)
        have e1 : off + min n (BSIZE - off % BSIZE) +
            (j - min n (BSIZE - off % BSIZE)) = off + j := by omega
        have e2 : srcPos + min n (BSIZE - off % BSIZE) +
            (j - min n (BSIZE - off % BSIZE)) = srcPos + j := by omega
        rw [e1, e2, addrOf_writeBytes] at h1
        exact h1
termination_by n

theorem getOrAllocSlot_fields (d : Disk) (ip : Inode) (i a : Nat) (d' : Disk) (ip' : Inode)
    (h : getOrAllocSlot d ip i = some (a, d', ip')) :
    ip'.size = ip.size ∧ ip'.type = ip.type ∧ ip'.dev = ip.dev ∧ ip'.inum = ip.inum ∧
    ip'.major = ip.major ∧ ip'.minor = ip.minor ∧ ip'.nlink = ip.nlink := by
  rcases (getOrAllocSlot_some d ip i a d' ip' h).2 with ⟨_, _, _, hip⟩ | ⟨_, _, _, hip⟩ <;>
    subst hip <;> exact ⟨rfl, rfl, rfl, rfl, rfl, rfl, rfl⟩

theorem bmap_fields (d : Disk) (ip : Inode) (bn a : Nat) (d' : Disk) (ip' : Inode)
    (h : bmap d ip bn = some (a, d', ip')) :
    ip'.size = ip.size ∧ ip'.type = ip.type ∧ ip'.dev = ip.dev ∧ ip'.inum = ip.inum ∧
    ip'.major = ip.major ∧ ip'.minor = ip.minor ∧ ip'.nlink = ip.nlink := by
  unfold bmap at h
  split at h
  case isTrue h1 => exact getOrAllocSlot_fields d ip bn a d' ip' h
  case isFalse h1 =>
    split at h
    case isTrue h2 =>
      split at h
      case h_1 saddr d1 ip1 heq1 =>
        split at h
        case h_1 a2 d2 heq2 =>
          simp only [Option.some.injEq, Prod.mk.injEq] at h
          obtain ⟨_, _, hip⟩ := h
          rw [← hip]
          exact getOrAllocSlot_fields d ip NDIRECT saddr d1 ip1 heq1
        case h_2 heq2 => exact absurd h (by simp)
      case h_2 heq1 => exact absurd h (by simp)
    case isFalse h2 =>
      split at h
      case isTrue h3 =>
        split at h
        case h_1 daddr d1 ip1 heq1 =>
          split at h
          case h_1 iaddr d2 heq2 =>
            split at h
            case h_1 t d3 heq3 =>
              simp only [Option.some.injEq, Prod.mk.injEq] at h
              obtain ⟨_, _, hip⟩ := h
              rw [← hip]
              exact getOrAllocSlot_fields d ip (NDIRECT + 1) daddr d1 ip1 heq1
            case h_2 heq3 => exact absurd h (by simp)
          case h_2 heq2 => exact absurd h (by simp)
        case h_2 heq1 => exact absurd h (by simp)
      case isFalse h3 => exact absurd h (by simp)

theorem writeiLoop_size (n : Nat) (d : Disk) (ip : Inode) (src : Nat → Nat)
    (srcPos off : Nat) (d' : Disk) (ip' : Inode)
    (h : writeiLoop d ip src srcPos off n = some (d', ip')) :
    ip'.size = ip.size := by
  unfold writeiLoop at h
  split at h
  case isTrue hn =>
    simp only [Option.some.injEq, Prod.mk.injEq] at h
    rw [← h.2]
  case isFalse hn =>
    split at h
    case h_1 heq => exact absurd h (by simp)
    case h_2 addr d1 ip1 heq =>
      have hblt : off % BSIZE < BSIZE := Nat.mod_lt _ (by simp [BSIZE])
      have hm1 : 1 ≤ min n (BSIZE - off % BSIZE) :=
        Nat.le_min.mpr ⟨Nat.one_le_iff_ne_zero.mpr hn, by omega⟩
      have h1 := writeiLoop_size (n - min n (BSIZE - off % BSIZE))
        (writeBytesRange d1 addr (off % BSIZE) src srcPos (min n (BSIZE - off % BSIZE)))
        ip1 src (srcPos + min n (BSIZE - off % BSIZE))
        (off + min n (BSIZE - off % BSIZE)) d' ip' h
      have h2 := bmap_fields d ip (off / BSIZE) addr d1 ip1 heq
      rw [h1, h2.1]
termination_by n
decreasing_by omega

theorem getOrAllocSlot_itable (d : Disk) (ip : Inode) (i a : Nat) (d' : Disk) (ip' : Inode)
    (h : getOrAllocSlot d ip i = some (a, d', ip')) : d'.itable = d.itable := by
  rcases (getOrAllocSlot_some d ip i a d' ip' h).2 with ⟨_, _, hd, _⟩ | ⟨_, _, hd, _⟩ <;>
    subst hd <;> rfl

theorem getOrAllocEntry_itable (d : Disk) (blk j a : Nat) (d' : Disk)
    (h : getOrAllocEntry d blk j = some (a, d')) : d'.itable = d.itable := by
  rcases (getOrAllocEntry_some d blk j a d' h).2 with ⟨_, _, hd⟩ | ⟨_, _, hd⟩ <;>
    subst hd <;> rfl

theorem bmap_itable (d : Disk) (ip : Inode) (bn a : Nat) (d' : Disk) (ip' : Inode)
    (h : bmap d ip bn = some (a, d', ip')) : d'.itable = d.itable := by
  unfold bmap at h
  split at h
  case isTrue h1 => exact getOrAllocSlot_itable d ip bn a d' ip' h
  case isFalse h1 =>
    split at h
    case isTrue h2 =>
      split at h
      case h_1 saddr d1 ip1 heq1 =>
        split at h
        case h_1 a2 d2 heq2 =>
          simp only [Option.some.injEq, Prod.mk.injEq] at h
          obtain ⟨_, hd, _⟩ := h
          rw [← hd, getOrAllocEntry_itable d1 saddr (bn - NDIRECT) a2 d2 heq2]
          exact getOrAllocSlot_itable d ip NDIRECT saddr d1 ip1 heq1
        case h_2 heq2 => exact absurd h (by simp)
      case h_2 heq1 => exact absurd h (by simp)
    case isFalse h2 =>
      split at h
      case isTrue h3 =>
        split at h
        case h_1 daddr d1 ip1 heq1 =>
          split at h
          case h_1 iaddr d2 heq2 =>
            split at h
            case h_1 t d3 heq3 =>
              simp only [Option.some.injEq, Prod.mk.injEq] at h
              obtain ⟨_, hd, _⟩ := h
              rw [← hd,
                getOrAllocEntry_itable d2 iaddr ((bn - NDIRECT - NINDIRECT) % NINDIRECT)
                  t d3 heq3,
                getOrAllocEntry_itable d1 daddr ((bn - NDIRECT - NINDIRECT) / NINDIRECT)
                  iaddr d2 heq2]
              exact getOrAllocSlot_itable d ip (NDIRECT + 1) daddr d1 ip1 heq1
            case h_2 heq3 => exact absurd h (by simp)
          case h_2 heq2 => exact absurd h (by simp)
        case h_2 heq1 => exact absurd h (by simp)
      case isFalse h3 => exact absurd h (by simp)

theorem writeiLoop_pres (n : Nat) (d : Disk) (ip : Inode) (src : Nat → Nat)
    (srcPos off : Nat) (d' : Disk) (ip' : Inode)
    (h : writeiLoop d ip src srcPos off n = some (d', ip')) :
    ip'.inum = ip.inum ∧ d'.itable = d.itable := by
  unfold writeiLoop at h
  split at h
  case isTrue hn =>
    simp only [Option.some.injEq, Prod.mk.injEq] at h
    rw [← h.1, ← h.2]
    exact ⟨rfl, rfl⟩
  case isFalse hn =>
    split at h
    case h_1 heq => exact absurd h (by simp)
    case h_2 addr d1 ip1 heq =>
      have hblt : off % BSIZE < BSIZE := Nat.mod_lt _ (by simp [BSIZE])
      have hm1 : 1 ≤ min n (BSIZE - off % BSIZE) :=
        Nat.le_min.mpr ⟨Nat.one_le_iff_ne_zero.mpr hn, by omega⟩
      have h1 := writeiLoop_pres (n - min n (BSIZE - off % BSIZE))
        (writeBytesRange d1 addr (off % BSIZE) src srcPos (min n (BSIZE - off % BSIZE)))
        ip1 src (srcPos + min n (BSIZE - off % BSIZE))
        (off + min n (BSIZE - off % BSIZE)) d' ip' h
      have h2 := bmap_fields d ip (off / BSIZE) addr d1 ip1 heq
      have h3 := bmap_itable d ip (off / BSIZE) addr d1 ip1 heq
      refine ⟨?_, ?_⟩
      · rw [h1.1]
        exact h2.2.2.2.1
      · rw [h1.2]
        show d1.itable = d.itable
        exact h3
termination_by n
decreasing_by omega

/-- C3: for a non-device inode, `writei` returns the failure signal
(`return -1`, modelled `none`) whenever the offset exceeds the current
size, or `off + n` overflows (wraps below `off` in 32-bit arithmetic), or
`off + n` exceeds `MAXFILE * BSIZE`; the C code returns before touching
any state, so no partial write is attempted (the model's failure carries
no state at all).  Moreover a successful `writei` never leaves the size
above `max (previous size) (MAXFILE * BSIZE)`. -/
theorem claim_C3_writei (d : Disk) (ip : Inode) (src : Nat → Nat) (off n : Nat)
    (hdev : ip.type ≠ T_DEV) (hoff : off < UINT32) (hn : n < UINT32) :
    ((off > ip.size ∨ off + n > MAXFILE * BSIZE) → writei d ip src off n = none) ∧
    (∀ r d' ip', writei d ip src off n = some (r, d', ip') →
      ip'.size ≤ max ip.size (MAXFILE * BSIZE)) := by
  have hU : UINT32 = 4294967296 := by norm_num [UINT32]
  have hM : MAXFILE * BSIZE = 8459776 := by
    norm_num [MAXFILE, BSIZE, NDIRECT, NINDIRECT]
  constructor
  · intro hfail
    unfold writei
    rw [if_neg hdev]
    by_cases h1 : off > ip.size ∨ (off + n) % UINT32 < off
    · rw [if_pos h1]
    · rw [if_neg h1]
      have hmod : (off + n) % UINT32 > MAXFILE * BSIZE := by
        rcases hfail with hbad | hbad
        · exact absurd (Or.inl hbad) h1
        · have h1' : ¬((off + n) % UINT32 < off) := fun hc => h1 (Or.inr hc)
          rw [hU] at h1' hoff hn ⊢
          rw [hM] at hbad ⊢
          omega
      rw [if_pos hmod]
  · intro r d' ip' h
    unfold writei at h
    rw [if_neg hdev] at h
    split at h
    case isTrue h1 => exact absurd h (by simp)
    case isFalse h1 =>
      split at h
      case isTrue h2 => exact absurd h (by simp)
      case isFalse h2 =>
        split at h
        case h_1 heqL => exact absurd h (by simp)
        case h_2 d1 ip1 heqL =>
          have hsz1 : ip1.size = ip.size :=
            writeiLoop_size n d ip src 0 off d1 ip1 heqL
          have hbound : off + n ≤ MAXFILE * BSIZE := by
            have h1' : ¬((off + n) % UINT32 < off) := fun hc => h1 (Or.inr hc)
            rw [hU] at h1' hoff hn
            rw [hM] at h2 ⊢
            rw [hU] at h2
            omega
          split at h
          case isTrue hup =>
            simp only [Option.some.injEq, Prod.mk.injEq] at h
            obtain ⟨_, _, hip⟩ := h
            rw [← hip]
            show off + n ≤ max ip.size (MAXFILE * BSIZE)
            exact le_trans hbound (Nat.le_max_right _ _)
          case isFalse hup =>
            simp only [Option.some.injEq, Prod.mk.injEq] at h
            obtain ⟨_, _, hip⟩ := h
            rw [← hip, hsz1]
            exact Nat.le_max_left _ _

/-- Inode for the rejection witnesses: a regular file of size 3. -/
def ipC3 : Inode :=
  { dev := 1, inum := 2, ref := 1, valid := 1, type := 2, major := 0, minor := 0,
    nlink := 1, size := 3, addrs := fun _ => 0 }

theorem claim_C3_witness : writei dC2 ipC3 (fun _ => 0) 10 5 = none :=
  (claim_C3_writei dC2 ipC3 (fun _ => 0) 10 5 (by decide) (by decide) (by decide)).1
    (Or.inl (by decide))

theorem iupdate_itable_self (d : Disk) (ip : Inode) :
    (iupdate d ip).itable ip.inum =
      ⟨ip.type, ip.major, ip.minor, ip.nlink, ip.size, ip.addrs⟩ := by
  unfold iupdate
  simp

/-- C4: `writei` of `n` bytes at offset `off` on a non-device inode.
Every successful call — including a call that extends the file and
allocates fresh data or index blocks on the way — returns exactly `n`,
leaves the in-memory size equal to `max (previous size) (off + n)`,
persists the updated inode through the log (`iupdate` writes the on-disk
image) exactly when the write extended the file, and leaves both the size
and the on-disk inode image unchanged when the write fits entirely within
the previous size.  Moreover, under the guards of a successful write
(`off` within the file, `off + n` under the structural ceiling) and
structural well-formedness of the covered range (every covered logical
block already mapped, distinct covered logical blocks on distinct
physical blocks), the call does succeed and all `n` source bytes land in
the file content at `off`. -/
theorem claim_C4_writei (d : Disk) (ip : Inode) (src : Nat → Nat) (off n : Nat)
    (hdev : ip.type ≠ T_DEV) :
    (∀ r d' ip', writei d ip src off n = some (r, d', ip') →
      r = n ∧ ip'.size = max ip.size (off + n) ∧
      (ip.size < off + n →
        d'.itable ip.inum =
          ⟨ip'.type, ip'.major, ip'.minor, ip'.nlink, ip'.size, ip'.addrs⟩) ∧
      (off + n ≤ ip.size → ip'.size = ip.size ∧ d'.itable = d.itable)) ∧
    (off ≤ ip.size → off + n ≤ MAXFILE * BSIZE →
      (∀ k, off ≤ k → k < off + n → resolvedB d ip (k / BSIZE) = true) →
      (∀ k1 k2, off ≤ k1 → k1 < off + n → off ≤ k2 → k2 < off + n →
        k1 / BSIZE ≠ k2 / BSIZE → addrOf d ip (k1 / BSIZE) ≠ addrOf d ip (k2 / BSIZE)) →
      ∃ d' ip', writei d ip src off n = some (n, d', ip') ∧
        ∀ j, j < n →
          d'.bytes (addrOf d ip ((off + j) / BSIZE)) ((off + j) % BSIZE) = src j) := by
  constructor
  · intro r d' ip' h
    unfold writei at h
    rw [if_neg hdev] at h
    split at h
    case isTrue h1 => exact absurd h (by simp)
    case isFalse h1 =>
      split at h
      case isTrue h2 => exact absurd h (by simp)
      case isFalse h2 =>
        split at h
        case h_1 heqL => exact absurd h (by simp)
        case h_2 d1 ip1 heqL =>
          have hsz1 : ip1.size = ip.size :=
            writeiLoop_size n d ip src 0 off d1 ip1 heqL
          have hpres := writeiLoop_pres n d ip src 0 off d1 ip1 heqL
          have hle : off ≤ ip.size := by
            by_contra hc
            exact h1 (Or.inl (by omega))
          split at h
          case isTrue hup =>
            simp only [Option.some.injEq, Prod.mk.injEq] at h
            obtain ⟨hr, hd, hip⟩ := h
            have hgrow : ip.size < off + n := by
              have := hup.2
              omega
            refine ⟨hr.symm, ?_, ?_, ?_⟩
            · rw [← hip]
              show off + n = max ip.size (off + n)
              rw [Nat.max_eq_right (Nat.le_of_lt hgrow)]
            · intro _
              rw [← hd, ← hip, ← hpres.1]
              exact iupdate_itable_self d1 { ip1 with size := off + n }
            · intro hc
              exact absurd hc (by omega)
          case isFalse hup =>
            simp only [Option.some.injEq, Prod.mk.injEq] at h
            obtain ⟨hr, hd, hip⟩ := h
            have hle2 : off + n ≤ ip.size := by
              by_cases h0 : 0 < n
              · have hc : ¬(off + n > ip1.size) := fun hc => hup ⟨h0, hc⟩
                omega
              · omega
            refine ⟨hr.symm, ?_, ?_, ?_⟩
            · rw [← hip, hsz1, Nat.max_eq_left hle2]
            · intro hc
              exact absurd hc (by omega)
            · intro _
              refine ⟨by rw [← hip, hsz1], ?_⟩
              rw [← hd]
              exact hpres.2
  · intro hsz hceil hres hdist
    have hU : UINT32 = 4294967296 := by norm_num [UINT32]
    have hM : MAXFILE * BSIZE = 8459776 := by
      norm_num [MAXFILE, BSIZE, NDIRECT, NINDIRECT]
    have hlt32 : off + n < UINT32 := by rw [hU]; rw [hM] at hceil; omega
    have hmod : (off + n) % UINT32 = off + n := Nat.mod_eq_of_lt hlt32
    have hc1 : ¬(off > ip.size ∨ (off + n) % UINT32 < off) := by
      rw [hmod]
      intro hc
      rcases hc with hc | hc <;> omega
    have hc2 : ¬((off + n) % UINT32 > MAXFILE * BSIZE) := by
      rw [hmod]
      omega
    obtain ⟨d1, hrec, hsz1, hbm1, hent1, hitab1, hframe1, hcopy1⟩ :=
      writeiLoop_spec n d ip src 0 off hres hdist
    by_cases hgrow : ip.size < off + n
    · have hn0 : 0 < n := by omega
      refine ⟨iupdate d1 { ip with size := off + n }, { ip with size := off + n },
        ?_, ?_⟩
      · unfold writei
        rw [if_neg hdev, if_neg hc1, if_neg hc2]
        simp only [hrec]
        rw [if_pos ⟨hn0, hgrow⟩]
      · intro j hj
        show d1.bytes _ _ = src j
        have := hcopy1 j hj
        rwa [Nat.zero_add] at this
    · have hnup : ¬(0 < n ∧ off + n > ip.size) := fun hc => hgrow hc.2
      refine ⟨d1, ip, ?_, ?_⟩
      · unfold writei
        rw [if_neg hdev, if_neg hc1, if_neg hc2]
        simp only [hrec]
        rw [if_neg hnup]
      · intro j hj
        have := hcopy1 j hj
        rwa [Nat.zero_add] at this

/-- Disk for the `claim_C4_writei` witness: block 5 is attached as the
file's first direct block. -/
def dC4 : Disk :=
  { size := 8, bitmap := fun b => decide (b < 6), entries := fun _ _ => 0,
    bytes := fun _ _ => 0, itable := fun _ => ⟨0, 0, 0, 0, 0, fun _ => 0⟩ }

/-- Inode for the `claim_C4_writei` witness. -/
def ipC4 : Inode :=
  { dev := 1, inum := 2, ref := 1, valid := 1, type := 2, major := 0, minor := 0,
    nlink := 1, size := 0, addrs := fun j => if j = 0 then 5 else 0 }

theorem claim_C4_witness :
    ∃ d' ip', writei dC4 ipC4 (fun _ => 7) 0 1 = some (1, d', ip') ∧
      ∀ j, j < 1 →
        d'.bytes (addrOf dC4 ipC4 ((0 + j) / BSIZE)) ((0 + j) % BSIZE) = 7 :=
  (claim_C4_writei dC4 ipC4 (fun _ => 7) 0 1 (by decide)).2
    (by decide) (by decide)
    (fun k hk1 hk2 => by
      have hk : k = 0 := by omega
      subst hk
      decide)
    (fun k1 k2 hk1 hk2 hk3 hk4 hne => by
      have : k1 = 0 ∧ k2 = 0 := by omega
      obtain ⟨rfl, rfl⟩ := this
      exact absurd rfl hne)

/-- C5: for a non-device inode, `readi` fails (`return -1`, modelled
`none`) when the offset exceeds the current size or `off + n` wraps below
`off` in 32-bit arithmetic; otherwise it clamps the length to
`min n (size - off)`, copies exactly that many bytes of the file content
starting at byte `off` into the destination, leaves the rest of the
destination and the whole state untouched, and returns that byte count.
The success part assumes every covered logical block is already mapped
(`resolvedB`), which makes the translation in the read loop allocation
free. -/
theorem claim_C5_readi (d : Disk) (ip : Inode) (dst : Nat → Nat) (off n : Nat)
    (hdev : ip.type ≠ T_DEV) :
    ((off > ip.size ∨ (off + n) % UINT32 < off) → readi d ip dst off n = none) ∧
    (off ≤ ip.size → off + n < UINT32 →
      (∀ k, off ≤ k → k < off + min n (ip.size - off) →
        resolvedB d ip (k / BSIZE) = true) →
      ∃ dst', readi d ip dst off n = some (min n (ip.size - off), dst', d, ip) ∧
        (∀ j, j < min n (ip.size - off) → dst' j = fileByte d ip (off + j)) ∧
        (∀ j, min n (ip.size - off) ≤ j → dst' j = dst j)) := by
  constructor
  · intro hfail
    unfold readi
    rw [if_neg hdev, if_pos hfail]
  · intro hsz hlt32 hres
    have hmod : (off + n) % UINT32 = off + n := Nat.mod_eq_of_lt hlt32
    have hc1 : ¬(off > ip.size ∨ (off + n) % UINT32 < off) := by
      rw [hmod]
      intro hc
      rcases hc with hc | hc <;> omega
    have hn1 : (if (off + n) % UINT32 > ip.size then ip.size - off else n) =
        min n (ip.size - off) := by
      rw [hmod]
      split
      · omega
      · omega
    obtain ⟨dst2, hrec, hcopy, hold⟩ :=
      readiLoop_spec (min n (ip.size - off)) d ip dst 0 off hres
    refine ⟨dst2, ?_, ?_, ?_⟩
    · unfold readi
      rw [if_neg hdev, if_neg hc1, hn1]
      simp only [hrec]
    · intro j hj
      have := hcopy j hj
      rwa [Nat.zero_add] at this
    · intro j hj
      exact hold j (Or.inr (by omega))

/-- Inode for the `claim_C5_readi` witness: 3 bytes stored in block 5. -/
def ipC5 : Inode :=
  { dev := 1, inum := 2, ref := 1, valid := 1, type := 2, major := 0, minor := 0,
    nlink := 1, size := 3, addrs := fun j => if j = 0 then 5 else 0 }

theorem claim_C5_witness :
    ∃ dst', readi dC4 ipC5 (fun _ => 0) 1 10 = some (min 10 (ipC5.size - 1), dst', dC4, ipC5) ∧
      (∀ j, j < min 10 (ipC5.size - 1) → dst' j = fileByte dC4 ipC5 (1 + j)) ∧
      (∀ j, min 10 (ipC5.size - 1) ≤ j → dst' j = (fun _ => (0 : Nat)) j) :=
  (claim_C5_readi dC4 ipC5 (fun _ => 0) 1 10 (by decide)).2 (by decide) (by decide)
    (fun k hk1 hk2 => by
      have hk2' : k < 3 := by
        have hsz : ipC5.size = 3 := rfl
        rw [hsz] at hk2
        simpa using hk2
      have hk : k = 1 ∨ k = 2 := by omega
      rcases hk with rfl | rfl <;> decide)

/-- Inode exhibiting the C10 counterexample: a regular file of size 5. -/
def ipC10 : Inode :=
  { dev := 1, inum := 2, ref := 1, valid := 1, type := 2, major := 0, minor := 0,
    nlink := 1, size := 5, addrs := fun _ => 0 }

/-- C10, counterexample to the claim as stated: `readi` with length zero
but offset 6 on a file of size 5 returns the failure signal, although the
claim asserts that a zero-length read "is not an error" and that only an
offset strictly greater than the size is reported as a failure together
with the zero-length case being exempt.  The offset check `off > ip->size`
fires before the length is ever examined. -/
theorem claim_C10_cx : readi dC2 ipC10 (fun _ => 0) 6 0 = none := rfl

/-- C10 as amended: for a non-device inode (with `off` and `n` in `uint`
range), a read with length zero and `off ≤ size`, or with `off = size` and
no 32-bit wrap of `off + n`, succeeds returning 0 bytes with the
destination and state untouched; and `readi` reports a failure whenever
`off > size` or `off + n` wraps below `off`. -/
theorem claim_C10_readi (d : Disk) (ip : Inode) (dst : Nat → Nat) (off n : Nat)
    (hdev : ip.type ≠ T_DEV) (hoff : off < UINT32) (hn : n < UINT32) :
    (n = 0 → off ≤ ip.size → readi d ip dst off n = some (0, dst, d, ip)) ∧
    (off = ip.size → off ≤ (off + n) % UINT32 →
      readi d ip dst off n = some (0, dst, d, ip)) ∧
    ((off > ip.size ∨ (off + n) % UINT32 < off) → readi d ip dst off n = none) := by
  have hU : UINT32 = 4294967296 := by norm_num [UINT32]
  refine ⟨?_, ?_, ?_⟩
  · intro hz hle
    subst hz
    have hmod : (off + 0) % UINT32 = off := by rw [hU] at hoff ⊢; omega
    have hc1 : ¬(off > ip.size ∨ (off + 0) % UINT32 < off) := by
      rw [hmod]
      intro hc
      rcases hc with hc | hc <;> omega
    have hn1 : (if (off + 0) % UINT32 > ip.size then ip.size - off else 0) = 0 := by
      rw [hmod]
      split <;> omega
    unfold readi
    rw [if_neg hdev, if_neg hc1, hn1]
    unfold readiLoop
    simp
  · intro hoffsz hnow
    have hn1 : (if (off + n) % UINT32 > ip.size then ip.size - off else n) = 0 := by
      split
      case isTrue hgt => omega
      case isFalse hgt =>
        rw [hU] at hnow hoff hn hgt
        omega
    have hc1 : ¬(off > ip.size ∨ (off + n) % UINT32 < off) := by
      intro hc
      rcases hc with hc | hc <;> omega
    unfold readi
    rw [if_neg hdev, if_neg hc1, hn1]
    unfold readiLoop
    simp
  · intro hfail
    unfold readi
    rw [if_neg hdev, if_pos hfail]

theorem claim_C10_witness : readi dC2 ipC10 (fun _ => 9) 5 7 = some (0, fun _ => 9, dC2, ipC10) :=
  (claim_C10_readi dC2 ipC10 (fun _ => 9) 5 7 (by decide) (by decide) (by decide)).2.1
    rfl (by decide)

/-- Default inode used with `List.getD` when stating pool-slot facts. -/
def inode0 : Inode := ⟨0, 0, 0, 0, 0, 0, 0, 0, 0, fun _ => 0⟩

theorem findIdxFrom_some {α : Type} (p : α → Bool) (d0 : α) :
    ∀ (l : List α) (i : Nat), findIdxFrom p l = some i →
      i < l.length ∧ p (l.getD i d0) = true ∧ ∀ j, j < i → p (l.getD j d0) = false := by
  intro l
  induction l with
  | nil => intro i h; simp [findIdxFrom] at h
  | cons x xs ih =>
    intro i h
    simp only [findIdxFrom] at h
    split at h
    case isTrue hp =>
      simp only [Option.some.injEq] at h
      subst h
      exact ⟨by simp, by simpa using hp, fun j hj => absurd hj (by omega)⟩
    case isFalse hp =>
      rcases hf : findIdxFrom p xs with _ | i0 <;> rw [hf] at h
      · simp at h
      · simp only [Option.map_some', Option.some.injEq] at h
        subst h
        have hr := ih i0 hf
        refine ⟨by simpa using hr.1, by simpa using hr.2.1, ?_⟩
        intro j hj
        cases j with
        | zero => simpa using hp
        | succ j0 =>
          have := hr.2.2 j0 (by omega)
          simpa using this

theorem findIdxFrom_none {α : Type} (p : α → Bool) (d0 : α) :
    ∀ (l : List α), findIdxFrom p l = none →
      ∀ j, j < l.length → p (l.getD j d0) = false := by
  intro l
  induction l with
  | nil => intro _ _ hj; simp at hj
  | cons x xs ih =>
    intro h j hj
    simp only [findIdxFrom] at h
    split at h
    case isTrue hp => exact absurd h (by simp)
    case isFalse hp =>
      cases j with
      | zero => simpa using hp
      | succ j0 =>
        rcases hf : findIdxFrom p xs with _ | i0 <;> rw [hf] at h
        · have := ih hf j0 (by simpa using hj)
          simpa using this
        · simp at h

theorem listUpd_length {α : Type} : ∀ (l : List α) (i : Nat) (f : α → α),
    (listUpd l i f).length = l.length := by
  intro l
  induction l with
  | nil => intro i f; rfl
  | cons x xs ih =>
    intro i f
    cases i with
    | zero => rfl
    | succ i0 => simp [listUpd, ih]

theorem listUpd_getD {α : Type} (d0 : α) : ∀ (l : List α) (i : Nat) (f : α → α) (j : Nat),
    (listUpd l i f).getD j d0 =
      if j = i ∧ j < l.length then f (l.getD j d0) else l.getD j d0 := by
  intro l
  induction l with
  | nil => intro i f j; cases j <;> simp [listUpd]
  | cons x xs ih =>
    intro i f j
    cases i with
    | zero =>
      cases j with
      | zero => simp [listUpd]
      | succ j0 => simp [listUpd]
    | succ i0 =>
      cases j with
      | zero => simp [listUpd]
      | succ j0 =>
        have := ih i0 f j0
        simp only [listUpd, List.getD_cons_succ, List.length_cons]
        rw [this]
        by_cases h1 : j0 = i0 ∧ j0 < xs.length
        · rw [if_pos h1, if_pos (by omega)]
        · rw [if_neg h1, if_neg (by omega)]

/-- C7: `iget` returns the first pool slot with positive reference count
matching `(dev, inum)`, with only its reference count incremented by one;
when no such slot is cached it claims the first slot with reference count
zero, setting `dev`, `inum`, `ref := 1`, `valid := 0` (the model takes no
disk state: `iget` performs no disk access); when no slot matches and
every slot has a positive reference count, it fails fatally
(`panic("iget: no inodes")`, modelled `none`). -/
theorem claim_C7_iget (pool : List Inode) (dev inum : Nat) :
    (∀ i pool', iget pool dev inum = some (i, pool') →
      i < pool.length ∧ pool'.length = pool.length ∧
      ((slotHit dev inum (pool.getD i inode0) = true ∧
        (∀ j, j < i → slotHit dev inum (pool.getD j inode0) = false) ∧
        pool'.getD i inode0 =
          { pool.getD i inode0 with ref := (pool.getD i inode0).ref + 1 } ∧
        (∀ j, j ≠ i → pool'.getD j inode0 = pool.getD j inode0)) ∨
       ((∀ j, j < pool.length → slotHit dev inum (pool.getD j inode0) = false) ∧
        (pool.getD i inode0).ref = 0 ∧
        (∀ j, j < i → (pool.getD j inode0).ref ≠ 0) ∧
        (pool'.getD i inode0).dev = dev ∧ (pool'.getD i inode0).inum = inum ∧
        (pool'.getD i inode0).ref = 1 ∧ (pool'.getD i inode0).valid = 0 ∧
        (∀ j, j ≠ i → pool'.getD j inode0 = pool.getD j inode0)))) ∧
    ((∀ j, j < pool.length →
        slotHit dev inum (pool.getD j inode0) = false ∧
        (pool.getD j inode0).ref ≠ 0) →
      iget pool dev inum = none) := by
  constructor
  · intro i pool' h
    unfold iget at h
    rcases hm : findIdxFrom (slotHit dev inum) pool with _ | i0 <;> rw [hm] at h
    · rcases he : findIdxFrom (fun s => decide (s.ref = 0)) pool with _ | i1 <;>
        rw [he] at h
      · exact absurd h (by simp)
      · simp only [Option.some.injEq, Prod.mk.injEq] at h
        obtain ⟨hi, hp⟩ := h
        subst hi
        subst hp
        have hf := findIdxFrom_some (fun s => decide (s.ref = 0)) inode0 pool i1 he
        have hnm := findIdxFrom_none (slotHit dev inum) inode0 pool hm
        refine ⟨hf.1, listUpd_length pool i1 _, Or.inr ⟨hnm, by simpa using hf.2.1,
          ?_, ?_, ?_, ?_, ?_, ?_⟩⟩
        · intro j hj
          have := hf.2.2 j hj
          simpa using this
        · rw [listUpd_getD, if_pos ⟨rfl, hf.1⟩]
        · rw [listUpd_getD, if_pos ⟨rfl, hf.1⟩]
        · rw [listUpd_getD, if_pos ⟨rfl, hf.1⟩]
        · rw [listUpd_getD, if_pos ⟨rfl, hf.1⟩]
        · intro j hj
          rw [listUpd_getD, if_neg (fun hc => hj hc.1)]
    · simp only [Option.some.injEq, Prod.mk.injEq] at h
      obtain ⟨hi, hp⟩ := h
      subst hi
      subst hp
      have hf := findIdxFrom_some (slotHit dev inum) inode0 pool i0 hm
      refine ⟨hf.1, listUpd_length pool i0 _, Or.inl ⟨hf.2.1, hf.2.2, ?_, ?_⟩⟩
      · rw [listUpd_getD, if_pos ⟨rfl, hf.1⟩]
      · intro j hj
        rw [listUpd_getD, if_neg (fun hc => hj hc.1)]
  · intro hfull
    unfold iget
    rcases hm : findIdxFrom (slotHit dev inum) pool with _ | i0
    · rcases he : findIdxFrom (fun s => decide (s.ref = 0)) pool with _ | i1
      · rw [he]
      · exfalso
        have hf := findIdxFrom_some (fun s => decide (s.ref = 0)) inode0 pool i1 he
        exact (hfull i1 hf.1).2 (by simpa using hf.2.1)
    · exfalso
      have hf := findIdxFrom_some (slotHit dev inum) inode0 pool i0 hm
      have hx := (hfull i0 hf.1).1
      rw [hf.2.1] at hx
      cases hx

/-- Pool for the `claim_C7_iget` witness: one busy non-matching slot and
one free slot. -/
def poolC7 : List Inode :=
  [{ inode0 with dev := 1, inum := 9, ref := 2 }, { inode0 with ref := 0 }]

theorem claim_C7_witness : (1 : Nat) < poolC7.length :=
  ((claim_C7_iget poolC7 1 4).1 1
    (listUpd poolC7 1 (fun s => { s with dev := 1, inum := 4, ref := 1, valid := 0 }))
    rfl).1

/-- Default directory record for `List.getD`. -/
def dirent0 : Dirent := ⟨0, []⟩

theorem getD_append_lt {α : Type} (d0 : α) :
    ∀ (l l' : List α) (j : Nat), j < l.length → (l ++ l').getD j d0 = l.getD j d0 := by
  intro l
  induction l with
  | nil => intro l' j hj; simp at hj
  | cons x xs ih =>
    intro l' j hj
    cases j with
    | zero => rfl
    | succ j0 =>
      simp only [List.cons_append, List.getD_cons_succ]
      exact ih l' j0 (by simpa using hj)

theorem getD_append_self {α : Type} (d0 : α) :
    ∀ (l : List α) (a : α), (l ++ [a]).getD l.length d0 = a := by
  intro l
  induction l with
  | nil => intro a; rfl
  | cons x xs ih => intro a; simpa using ih a

theorem dirlookupOff_none (name : List Char) :
    ∀ (des : List Dirent) (off : Nat), dirlookupOff des name off = none →
      ∀ de ∈ des, ¬(de.inum ≠ 0 ∧ nameEq name de.name = true) := by
  intro des
  induction des with
  | nil => intro off _ de hde; simp at hde
  | cons d0 rest ih =>
    intro off h de hde
    simp only [dirlookupOff] at h
    split at h
    case isTrue hc => exact absurd h (by simp)
    case isFalse hc =>
      rcases List.mem_cons.mp hde with rfl | hde
      · exact hc
      · exact ih (off + DIRENTSZ) h de hde

theorem dirlookupOff_found (name : List Char) :
    ∀ (des : List Dirent) (i off : Nat), i < des.length →
      (∀ j, j < i →
        ¬((des.getD j dirent0).inum ≠ 0 ∧
          nameEq name (des.getD j dirent0).name = true)) →
      (des.getD i dirent0).inum ≠ 0 →
      nameEq name (des.getD i dirent0).name = true →
      dirlookupOff des name off =
        some ((des.getD i dirent0).inum, off + DIRENTSZ * i) := by
  intro des
  induction des with
  | nil => intro i off hi; simp at hi
  | cons d0 rest ih =>
    intro i off hi hskip hnz hname
    cases i with
    | zero =>
      simp only [dirlookupOff]
      rw [if_pos ⟨by simpa using hnz, by simpa using hname⟩]
      simp
    | succ i0 =>
      simp only [dirlookupOff]
      rw [if_neg (by simpa using hskip 0 (by omega))]
      have := ih i0 (off + DIRENTSZ) (by simpa using hi)
        (fun j hj => by simpa using hskip (j + 1) (by omega))
        (by simpa using hnz) (by simpa using hname)
      rw [this]
      simp only [List.getD_cons_succ]
      have harith : off + DIRENTSZ + DIRENTSZ * i0 = off + DIRENTSZ * (i0 + 1) := by
        simp only [DIRENTSZ]
        omega
      rw [harith]

theorem getD_mem {α : Type} (d0 : α) :
    ∀ (l : List α) (j : Nat), j < l.length → l.getD j d0 ∈ l := by
  intro l
  induction l with
  | nil => intro j hj; simp at hj
  | cons x xs ih =>
    intro j hj
    cases j with
    | zero => simp
    | succ j0 =>
      simp only [List.getD_cons_succ]
      exact List.mem_cons_of_mem x (ih j0 (by simpa using hj))

/-- C8: `dirlink` rejects (`return -1`, modelled `none`, directory content
untouched) when `dirlookup` already finds `name`; otherwise it writes the
record `(inum, name)` over the first record whose inode number is zero, or
appends it at the end of the directory when no hole exists, and a
subsequent `dirlookup` of that name resolves to the linked inode number at
the byte offset of the written record.  `inum` is a real inode number
(positive, and within the `ushort` range of the on-disk field). -/
theorem claim_C8_dirlink (des : List Dirent) (name : List Char) (inum : Nat)
    (h1 : 0 < inum) (h2 : inum < USHORT) :
    ((dirlookup des name).isSome = true → dirlink des name inum = none) ∧
    (dirlookup des name = none →
      ∃ des' i, dirlink des name inum = some des' ∧ i ≤ des.length ∧
        (∀ j, j < i → (des.getD j dirent0).inum ≠ 0) ∧
        ((i < des.length ∧ (des.getD i dirent0).inum = 0 ∧
          des' = listUpd des i (fun _ => ⟨inum % USHORT, storeName name⟩)) ∨
         (i = des.length ∧ des' = des ++ [⟨inum % USHORT, storeName name⟩])) ∧
        dirlookup des' name = some (inum, DIRENTSZ * i)) := by
  constructor
  · intro hsome
    unfold dirlink
    rw [if_pos hsome]
  · intro hnone
    have hmod : inum % USHORT = inum := Nat.mod_eq_of_lt h2
    have hnomatch := dirlookupOff_none name des 0 hnone
    have hnosome : ¬(dirlookup des name).isSome = true := by
      unfold dirlookup at *
      rw [hnone]
      simp
    have hnameq : nameEq name (storeName name) = true := by simp [nameEq]
    rcases hfind : findIdxFrom (fun de => decide (de.inum = 0)) des with _ | i0
    · refine ⟨des ++ [⟨inum % USHORT, storeName name⟩], des.length, ?_,
        Nat.le_refl _, ?_, Or.inr ⟨rfl, rfl⟩, ?_⟩
      · unfold dirlink
        rw [if_neg hnosome, hfind]
        simp only [Option.getD_none]
        rw [if_neg (Nat.lt_irrefl _)]
      · intro j hj
        have := findIdxFrom_none (fun de => decide (de.inum = 0)) dirent0 des hfind j hj
        simpa using this
      · unfold dirlookup
        have happ := dirlookupOff_found name (des ++ [⟨inum % USHORT, storeName name⟩])
          des.length 0 (by simp)
          (fun j hj => by
            rw [getD_append_lt dirent0 des _ j hj]
            exact hnomatch _ (getD_mem dirent0 des j hj))
          (by rw [getD_append_self]; simpa [hmod] using Nat.pos_iff_ne_zero.mp h1)
          (by rw [getD_append_self]; exact hnameq)
        rw [happ, getD_append_self]
        simp [hmod]
    · have hf := findIdxFrom_some (fun de => decide (de.inum = 0)) dirent0 des i0 hfind
      refine ⟨listUpd des i0 (fun _ => ⟨inum % USHORT, storeName name⟩), i0, ?_,
        Nat.le_of_lt hf.1, ?_, Or.inl ⟨hf.1, by simpa using hf.2.1, rfl⟩, ?_⟩
      · unfold dirlink
        rw [if_neg hnosome, hfind]
        simp only [Option.getD_some]
        rw [if_pos hf.1]
      · intro j hj
        have := hf.2.2 j hj
        simpa using this
      · unfold dirlookup
        have hlen : i0 < (listUpd des i0
            (fun _ => (⟨inum % USHORT, storeName name⟩ : Dirent))).length := by
          rw [listUpd_length]
          exact hf.1
        have hat : (listUpd des i0
            (fun _ => (⟨inum % USHORT, storeName name⟩ : Dirent))).getD i0 dirent0 =
            ⟨inum % USHORT, storeName name⟩ := by
          rw [listUpd_getD, if_pos ⟨rfl, hf.1⟩]
        have happ := dirlookupOff_found name
          (listUpd des i0 (fun _ => ⟨inum % USHORT, storeName name⟩)) i0 0 hlen
          (fun j hj => by
            rw [listUpd_getD, if_neg (fun hc => absurd hc.1 (by omega))]
            exact hnomatch _ (getD_mem dirent0 des j (by omega)))
          (by rw [hat]; simpa [hmod] using Nat.pos_iff_ne_zero.mp h1)
          (by rw [hat]; exact hnameq)
        rw [happ, hat]
        simp [hmod]

/-- Directory for the `claim_C8_dirlink` witness: one live record `"a"`
and one hole. -/
def desC8 : List Dirent := [⟨7, storeName ['a']⟩, ⟨0, storeName ['b']⟩]

theorem claim_C8_witness :
    ∃ des' i, dirlink desC8 ['c'] 9 = some des' ∧ i ≤ desC8.length ∧
      (∀ j, j < i → (desC8.getD j dirent0).inum ≠ 0) ∧
      ((i < desC8.length ∧ (desC8.getD i dirent0).inum = 0 ∧
        des' = listUpd desC8 i (fun _ => ⟨9 % USHORT, storeName ['c']⟩)) ∨
       (i = desC8.length ∧ des' = desC8 ++ [⟨9 % USHORT, storeName ['c']⟩])) ∧
      dirlookup des' ['c'] = some (9, DIRENTSZ * i) :=
  (claim_C8_dirlink desC8 ['c'] 9 (by decide) (by decide)).2 (by decide)

theorem namexGo_base (fs : FsView) (npar : Bool) (ip : Nat) (path : List Char)
    (h : skipelem path = none) :
    namexGo fs npar ip path = if npar then none else some ip := by
  unfold namexGo
  split
  · rfl
  · next rest name heq =>
    rw [h] at heq
    cases heq

theorem dropWhile_allsep : ∀ l : List Char, (∀ c ∈ l, c = '/') →
    l.dropWhile (fun c => c = '/') = [] := by
  intro l
  induction l with
  | nil => intro _; rfl
  | cons c cs ih =>
    intro h
    rw [List.dropWhile_cons, if_pos (by simpa using h c (List.mem_cons_self c cs))]
    exact ih (fun c' hc' => h c' (List.mem_cons_of_mem c hc'))

theorem skipelem_allsep (path : List Char) (h : ∀ c ∈ path, c = '/') :
    skipelem path = none := by
  simp only [skipelem, dropWhile_allsep path h]

/-- File-system view for the C9 counterexample: every inode is a directory,
all directories are empty, and the current directory is inode 5. -/
def fsC9 : FsView := { typeOf := fun _ => T_DIR, dirents := fun _ => [], cwd := 5 }

/-- C9, counterexample to the claim as stated: with `nameiparent = 0`,
`namex` on the all-separator path `"////"` succeeds and returns the root
inode, and on the empty path `""` succeeds and returns the current
directory — the loop body never runs and `namex` falls through to
`return ip`.  Only the `nameiparent` mode returns the null (not-found)
result for these paths. -/
theorem claim_C9_cx :
    namex fsC9 ['/', '/', '/', '/'] false = some ROOTINO ∧
    namex fsC9 [] false = some fsC9.cwd := by
  constructor
  · unfold namex
    rw [namexGo_base fsC9 false _ _ (by rfl)]
    rfl
  · unfold namex
    rw [namexGo_base fsC9 false _ _ (by rfl)]
    rfl

/-- C9 as amended: for an empty or all-separator path, path resolution
with `stop_before_last` (`nameiparent`) set fails with not-found (returns
no inode), while without it the walk terminates immediately and returns
its starting inode: the root inode for a path beginning with a separator,
otherwise the caller's current directory. -/
theorem claim_C9_namex (fs : FsView) (path : List Char)
    (h : ∀ c ∈ path, c = '/') :
    namex fs path true = none ∧
    namex fs path false =
      some (if path.head? = some '/' then ROOTINO else fs.cwd) := by
  have hs : skipelem path = none := skipelem_allsep path h
  constructor
  · unfold namex
    rw [namexGo_base fs true _ path hs]
    rfl
  · unfold namex
    rw [namexGo_base fs false _ path hs]
    rfl

theorem claim_C9_witness : namex fsC9 ['/'] true = none :=
  (claim_C9_namex fsC9 ['/'] (by decide)).1
